import Mathlib

/-!
# Verification of the JASSv2 accumulator-and-heap ranking engine

A shallow embedding of the top-k ranking core (`query_atire_global`) and of the
fixed-buffer arena allocator (`allocator_memory`), together with proofs of the
specified properties.

Sources embedded here:
* the global-state experimental engine (comparator `add_rsv_compare`, the global
  arrays `clean_flags[10]` / `accumulators[200'000]`, and the class
  `query_atire_global` with `rewind`, `add_rsv`, `begin`/`end`);
* `allocator_memory::malloc` / `rewind`;
* the constructor parameter computation
  (`accumulators_shift` / `accumulators_width` / `accumulators_height`).

The heap (`heap.h`: `make_heap`, `promote`, `push_back`) and the partial sort
(`top_k_qsort.h`) are not part of the provided sources; they are modelled from
the specification, as marked on each such definition.

Modelling conventions: machine integers are `Nat`; the 16-bit accumulator cells
wrap modulo `2^16 = 65536` exactly where the C++ `uint16_t` arithmetic does;
pointers into the accumulator array are represented by their cell index (the
document identifier), so the pointer-address tie-break of the comparator is the
index tie-break; the accumulator table and the dirty-flag vector are total
functions from indices, never implicitly zero-initialised, so that stale values
from a previous query are modelled faithfully.
-/

namespace JASS


/-! ## Constructor arithmetic

The constructor computes, from the document count:
`accumulators_shift = log2(sqrt(documents))` (truncated to an integer),
`accumulators_width = 1 << accumulators_shift`,
`accumulators_height = (documents + accumulators_width) / accumulators_width`.
The two real-valued helper functions are embedded as the corresponding exact
integer floor functions (`⌊log₂⌊√n⌋⌋ = ⌊log₂√n⌋` for every `n`), written with
structural recursion so that they reduce by evaluation. -/

/-- `sqrtAux k n` is the largest `m ≤ k` with `m * m ≤ n`. -/
def sqrtAux : Nat → Nat → Nat
  | 0, _ => 0
  | k + 1, n => if (k + 1) * (k + 1) ≤ n then k + 1 else sqrtAux k n

/-- Integer square root: the largest `m` with `m * m ≤ n`. -/
def natSqrt (n : Nat) : Nat := sqrtAux n n

/-- Fuelled floor base-2 logarithm. -/
def log2Fuel : Nat → Nat → Nat
  | 0, _ => 0
  | fuel + 1, n => if n < 2 then 0 else log2Fuel fuel (n / 2) + 1

/-- Floor base-2 logarithm (`0` at `0` and `1`). -/
def floorLog2 (n : Nat) : Nat := log2Fuel n n

/-- `accumulators_shift = log2(sqrt((double)documents))`, truncated. -/
def accumulators_shift (documents : Nat) : Nat := floorLog2 (natSqrt documents)

/-- `accumulators_width = 1 << accumulators_shift`. -/
def accumulators_width (documents : Nat) : Nat := 2 ^ accumulators_shift documents

/-- `accumulators_height = (documents + accumulators_width) / accumulators_width`. -/
def accumulators_height (documents : Nat) : Nat :=
  (documents + accumulators_width documents) / accumulators_width documents

/-- Declared size of the global dirty-flag array: `uint8_t clean_flags[10]`. -/
def clean_flags_capacity : Nat := 10

/-- Declared size of the global accumulator array: `uint16_t accumulators[200'000]`. -/
def accumulators_capacity : Nat := 200000

/-- The accumulator cells are `uint16_t`, so cell arithmetic is modulo `2^16`. -/
def accumulatorMod : Nat := 65536

/-! ## The comparator

`add_rsv_compare::operator()` over two pointers into the accumulator array.
The engine source defines
`*a > *b ? 1 : *a < *b ? -1 : a - b`
(pointer difference in the tie branch), while the header variant
`query_atire_global.h` defines
`*a > *b ? 1 : *a < *b ? -1 : (a > b ? 1 : a < b ? -1 : 0)`.
Both are embedded, over cell indices and the current cell-value function. -/

/-- The engine comparator: tie on values falls back to the pointer difference. -/
def add_rsv_compare (acc : Nat → Nat) (a b : Nat) : Int :=
  if acc a > acc b then 1 else if acc a < acc b then -1 else (a : Int) - (b : Int)

/-- The header variant of the comparator: tie on values falls back to the sign
of the pointer comparison, yielding exactly `1`, `-1` or `0`. -/
def add_rsv_compare_header (acc : Nat → Nat) (a b : Nat) : Int :=
  if acc a > acc b then 1
  else if acc a < acc b then -1
  else if a > b then 1 else if a < b then -1 else 0

/-- The strict order `≺` on accumulator cells: by value, then by index
(address). `keyLt acc a b` holds when cell `a` ranks strictly below cell `b`. -/
def keyLt (acc : Nat → Nat) (a b : Nat) : Prop :=
  acc a < acc b ∨ (acc a = acc b ∧ a < b)

instance (acc : Nat → Nat) (a b : Nat) : Decidable (keyLt acc a b) := by
  unfold keyLt; infer_instance

/-! ## The arena allocator (`allocator_memory`) -/

/-- State of a fixed-buffer bump allocator: the cursor `used` and the capacity
`allocated` of the caller-supplied buffer. -/
structure allocator_memory where
  used : Nat
  allocated : Nat
deriving DecidableEq

/-- Modelled from the spec: `allocator_memory::realign` lives in
`allocator_memory.h`, which is not among the provided sources.  Per the spec,
`malloc` inserts "leading padding to satisfy `alignment`": the padding is the
distance from the cursor up to the next multiple of the alignment. -/
def realignPadding (used alignment : Nat) : Nat :=
  if used % alignment = 0 then 0 else alignment - used % alignment

/-- Outcome of `allocator_memory::malloc`.  In the source, the out-of-capacity
branch executes `exit(printf("... Out of memory ..."))` — the surrounding
`#ifdef NEVER` is commented out — so the `return nullptr` after it is dead
code; that branch is the `out_of_memory_exit` constructor.  On success the call
returns the (offset of the) padded cursor and advances `used`. -/
inductive mallocResult where
  | out_of_memory_exit : mallocResult
  | ok (offset : Nat) (after : allocator_memory) : mallocResult
deriving DecidableEq

/-- `allocator_memory::malloc(bytes, alignment)`.  The compare-and-swap loop of
the source is single-iteration under the single-threaded model. -/
def allocator_memory_malloc (s : allocator_memory) (bytes alignment : Nat) :
    mallocResult :=
  let padding := if alignment = 1 then 0 else realignPadding s.used alignment
  if s.allocated < s.used + bytes + padding then .out_of_memory_exit
  else .ok (s.used + padding) ⟨s.used + bytes + padding, s.allocated⟩

/-- `allocator_memory::rewind()`: reset the cursor. -/
def allocator_memory_rewind (s : allocator_memory) : allocator_memory :=
  ⟨0, s.allocated⟩

/-! ## Engine construction

The constructor of `query_atire_global` computes the table geometry, installs
the primary-key table and `top_k`, and performs no validation of `documents` or
`top_k` whatsoever: every path constructs an engine. -/

/-- The parameters the constructor derives and stores. -/
structure engineParams where
  documents : Nat
  top_k : Nat
  shift : Nat
  width : Nat
  height : Nat
deriving DecidableEq

/-- `query_atire_global::query_atire_global(primary_keys, documents, top_k)`:
no branch rejects any parameter value, so construction always succeeds;
`Option` records the absence of any failing path. -/
def query_atire_global_construct (documents top_k : Nat) : Option engineParams :=
  some
    { documents := documents
      top_k := top_k
      shift := accumulators_shift documents
      width := accumulators_width documents
      height := accumulators_height documents }

/-! ## The bounded min-heap over accumulator pointers

`heap.h` is not among the provided sources; the three operations below are
modelled from the specification: an implicit binary min-heap stored in the
pointer array with root at index `0` and children of `i` at `2i+1`, `2i+2`,
ordered by `≺`.  The pointer array prefix `P[0..results_list_length)` is
modelled as a `List Nat` of cell indices.  Sift-down is written with explicit
fuel (the recursion depth is bounded by the list length) so that it reduces by
evaluation. -/

/-- Exchange the entries at positions `i` and `j`. -/
def hSwap (l : List Nat) (i j : Nat) : List Nat :=
  (l.set i (l.getD j 0)).set j (l.getD i 0)

/-- Index of the smallest entry among position `i` and its in-range children
`2i+1`, `2i+2`, under `≺` with ties to the earlier position. -/
def smallestChild (acc : Nat → Nat) (l : List Nat) (i : Nat) : Nat :=
  if 2 * i + 1 < l.length ∧ keyLt acc (l.getD (2 * i + 1) 0) (l.getD i 0) then
    if 2 * i + 2 < l.length ∧ keyLt acc (l.getD (2 * i + 2) 0) (l.getD (2 * i + 1) 0)
      then 2 * i + 2 else 2 * i + 1
  else
    if 2 * i + 2 < l.length ∧ keyLt acc (l.getD (2 * i + 2) 0) (l.getD i 0)
      then 2 * i + 2 else i

/-- Fuelled sift-down from position `i`: swap with the smallest child while it
is strictly smaller, descending. -/
def siftDownF (acc : Nat → Nat) : Nat → List Nat → Nat → List Nat
  | 0, l, _ => l
  | fuel + 1, l, i =>
    let m := smallestChild acc l i
    if m = i then l else siftDownF acc fuel (hSwap l i m) m

/-- Modelled from the spec: sift down from position `i` (the recursion visits
strictly increasing positions, so `l.length` fuel always suffices). -/
def siftDown (acc : Nat → Nat) (l : List Nat) (i : Nat) : List Nat :=
  siftDownF acc l.length l i

/-- Sift down each of the positions `k-1, k-2, ..., 0` in turn. -/
def heapifyFrom (acc : Nat → Nat) : Nat → List Nat → List Nat
  | 0, l => l
  | k + 1, l => heapifyFrom acc k (siftDown acc l k)

/-- Modelled from the spec: `heap::make_heap()` — heapify the whole pointer
array bottom-up (sift-downs at leaf positions are no-ops). -/
def make_heap (acc : Nat → Nat) (l : List Nat) : List Nat :=
  heapifyFrom acc l.length l

/-- Modelled from the spec: `heap::promote(x)` — locate `x` by pointer
equality and sift it down from its current position (`x` is in the array by
the operation's precondition; on a stray pointer the scan falls off the end
and the sift-down is a no-op). -/
def promote (acc : Nat → Nat) (l : List Nat) (x : Nat) : List Nat :=
  siftDown acc l (l.indexOf x)

/-- Modelled from the spec: `heap::push_back(x)` — replace the root with `x`
and sift down (replace-min; the caller has verified `x ≻ P[0]`). -/
def push_back (acc : Nat → Nat) (l : List Nat) (x : Nat) : List Nat :=
  siftDown acc (l.set 0 x) 0

/-! ## The top-k partial sort

`top_k_qsort.h` is not among the provided sources.  Modelled from the spec:
given `P[0..L)` and the target `top_k`, produce `P[0..min(L, top_k))` sorted in
descending order under `≺`.  The engine always calls it with `L ≤ top_k`, so
the model sorts the whole pointer list, here by insertion. -/

/-- Insert `d` into a `≺`-descending list, keeping it descending. -/
def insertDesc (acc : Nat → Nat) (d : Nat) : List Nat → List Nat
  | [] => [d]
  | e :: es => if keyLt acc e d then d :: e :: es else e :: insertDesc acc d es

/-- Sort a list of cell indices in descending `≺` order. -/
def sortDesc (acc : Nat → Nat) : List Nat → List Nat
  | [] => []
  | d :: ds => insertDesc acc d (sortDesc acc ds)

/-- Modelled from the spec: `top_k_qsort(accumulator_pointers,
results_list_length, top_k)` — descending partial sort of the tracked prefix
(the whole modelled list, since `results_list_length ≤ top_k`). -/
def top_k_qsort (acc : Nat → Nat) (l : List Nat) : List Nat :=
  sortDesc acc l

/-! ## The query engine state and operations -/

/-- The mutable engine state: the accumulator table (total over cell indices,
allowing stale values), the per-strip dirty flags (`clean_flags[s] = true`
models the written value `1`), and the tracked pointer prefix
`accumulator_pointers[0..results_list_length)` as a list of cell indices. -/
structure QState where
  acc : Nat → Nat
  clean : Nat → Bool
  ptrs : List Nat

/-- `results_list_length`. -/
def results_list_length (s : QState) : Nat := s.ptrs.length

/-- The lazy-clear prologue of `add_rsv`: if the strip of `docid` is not
flagged, flag it and zero its `accumulators_width` cells. -/
def lazyClear (documents : Nat) (s : QState) (docid : Nat) : QState :=
  let strip := docid >>> accumulators_shift documents
  let w := accumulators_width documents
  if s.clean strip = false then
    { s with
      clean := fun t => if t = strip then true else s.clean t
      acc := fun j => if w * strip ≤ j ∧ j < w * strip + w then 0 else s.acc j }
  else s

/-- `query_atire_global::add_rsv(docid, score)`: lazily clear the strip, then
either append below capacity (heapifying once full), update-and-promote a cell
at or above the root, or replace the root when an outside cell overtakes it.
Cell writes are `uint16_t`, hence modulo `65536`. -/
def add_rsv (documents top_k : Nat) (s : QState) (docid score : Nat) : QState :=
  let s1 := lazyClear documents s docid
  if s1.ptrs.length < top_k then
    let old := s1.acc docid
    let acc2 := fun j => if j = docid then (old + score) % accumulatorMod else s1.acc j
    let ptrs2 := if old = 0 then s1.ptrs ++ [docid] else s1.ptrs
    { s1 with
      acc := acc2
      ptrs := if ptrs2.length = top_k then make_heap acc2 ptrs2 else ptrs2 }
  else if 0 ≤ add_rsv_compare s1.acc docid (s1.ptrs.headD 0) then
    let acc2 := fun j => if j = docid then (s1.acc docid + score) % accumulatorMod else s1.acc j
    { s1 with acc := acc2, ptrs := promote acc2 s1.ptrs docid }
  else
    let acc2 := fun j => if j = docid then (s1.acc docid + score) % accumulatorMod else s1.acc j
    if 0 < add_rsv_compare acc2 docid (s1.ptrs.headD 0) then
      { s1 with acc := acc2, ptrs := push_back acc2 s1.ptrs docid }
    else { s1 with acc := acc2 }

/-- `query_atire_global::rewind()`: empty the results list and `memset` the
first `accumulators_height` dirty flags to zero (flags beyond that range, which
no valid document indexes, are untouched).  The parsed-query container it also
recreates belongs to the text pipeline and is outside this model. -/
def rewind (documents : Nat) (s : QState) : QState :=
  { s with
    ptrs := []
    clean := fun t => if t < accumulators_height documents then false else s.clean t }

/-- Run a sequence of `add_rsv` calls. -/
def runAdds (documents top_k : Nat) (s : QState) (h : List (Nat × Nat)) : QState :=
  h.foldl (fun s p => add_rsv documents top_k s p.1 p.2) s

/-- An externally observable engine operation. -/
inductive QOp where
  | rewindOp : QOp
  | addOp (docid score : Nat) : QOp

/-- Run a sequence of `rewind` / `add_rsv` operations. -/
def runOps (documents top_k : Nat) (s : QState) (ops : List QOp) : QState :=
  ops.foldl
    (fun s op =>
      match op with
      | .rewindOp => rewind documents s
      | .addOp d sc => add_rsv documents top_k s d sc)
    s

/-- The result sequence from `begin()` to `end()`: `begin` runs the partial
sort, and the iterator yields, for `where` from `0` to `results_list_length`,
the triple `(id, primary_keys[id], accumulators[id])` with
`id = accumulator_pointers[where] - accumulators`. -/
def queryOutput (primary_keys : List String) (s : QState) : List (Nat × String × Nat) :=
  (top_k_qsort s.acc s.ptrs).map fun d => (d, primary_keys.getD d "", s.acc d)

/-! ## Brute-force reference -/

/-- The brute-force total for `d`: the sum of all scores supplied for `d`. -/
def totals (h : List (Nat × Nat)) (d : Nat) : Nat :=
  ((h.filter fun p => p.1 = d).map Prod.snd).sum

/-- The documents with positive brute-force total. -/
def positiveDocs (documents : Nat) (tot : Nat → Nat) : List Nat :=
  (List.range documents).filter fun d => 0 < tot d

/-- The brute-force reference answer: all documents with positive total,
sorted descending under `≺` keyed by the totals, truncated to `top_k`. -/
def bruteList (documents top_k : Nat) (tot : Nat → Nat) : List Nat :=
  (sortDesc tot (positiveDocs documents tot)).take top_k

/-! ## Heap predicates and sift-down correctness -/

/-- All parent-child edges whose parent position is at least `k` are
min-heap-ordered. -/
def HeapFromIdx (acc : Nat → Nat) (l : List Nat) (k : Nat) : Prop :=
  ∀ p c, (c = 2 * p + 1 ∨ c = 2 * p + 2) → c < l.length → k ≤ p →
    ¬ keyLt acc (l.getD c 0) (l.getD p 0)

/-- The binary min-heap property on the whole list. -/
def IsHeap (acc : Nat → Nat) (l : List Nat) : Prop := HeapFromIdx acc l 0

/-- The accumulator-side invariant tying the engine state to the history `g`
of `add_rsv` calls since the last `rewind`: a strip below the height is
flagged exactly when some call touched it, and every cell of a flagged strip
holds its brute-force total (reduced by the 16-bit cell width). -/
def AccInv (documents : Nat) (g : List (Nat × Nat)) (s : QState) : Prop :=
  (∀ t, t < accumulators_height documents →
    (s.clean t = true ↔ ∃ p ∈ g, p.1 >>> accumulators_shift documents = t)) ∧
  (∀ j, j >>> accumulators_shift documents < accumulators_height documents →
    s.clean (j >>> accumulators_shift documents) = true →
    s.acc j = totals g j % accumulatorMod)

/-! ## The pointer-list invariant -/

/-- The value function `add_rsv` installs: the lazily cleared table with the
score added into cell `d` modulo the cell width. -/
def bumped (documents : Nat) (s : QState) (d sc : Nat) : Nat → Nat :=
  fun j => if j = d then ((lazyClear documents s d).acc d + sc) % accumulatorMod
    else (lazyClear documents s d).acc j

/-- The heap-side invariant tying the tracked pointer list to the history `g`:
entries are distinct valid documents with positive totals; the list never
exceeds `top_k`; while below capacity it holds exactly the positive documents;
at capacity it is a min-heap whose root strictly dominates every untracked
positive document. -/
structure PInv (documents top_k : Nat) (g : List (Nat × Nat)) (s : QState) : Prop where
  nodup : s.ptrs.Nodup
  mem_lt : ∀ d ∈ s.ptrs, d < documents
  mem_pos : ∀ d ∈ s.ptrs, 0 < totals g d
  len_le : s.ptrs.length ≤ top_k
  notFull : s.ptrs.length < top_k → ∀ d, d < documents → 0 < totals g d → d ∈ s.ptrs
  heap : s.ptrs.length = top_k → IsHeap s.acc s.ptrs
  below_root : s.ptrs.length = top_k → ∀ d, d < documents → 0 < totals g d →
    d ∉ s.ptrs → keyLt s.acc d (s.ptrs.headD 0)

/-- The all-zero, all-clean, empty starting state used by the concrete runs. -/
def zeroState : QState := ⟨fun _ => 0, fun _ => false, []⟩

/-! ## Theorems -/

theorem keyLt_irrefl (acc : Nat → Nat) (a : Nat) : ¬ keyLt acc a a := by
  simp [keyLt]

theorem keyLt_trans {acc : Nat → Nat} {a b c : Nat}
    (h₁ : keyLt acc a b) (h₂ : keyLt acc b c) : keyLt acc a c := by
  rcases h₁ with h₁ | ⟨h₁, h₁i⟩ <;> rcases h₂ with h₂ | ⟨h₂, h₂i⟩
  · exact Or.inl (h₁.trans h₂)
  · exact Or.inl (h₂ ▸ h₁)
  · exact Or.inl (h₁ ▸ h₂)
  · exact Or.inr ⟨h₁.trans h₂, h₁i.trans h₂i⟩

theorem keyLt_asymm {acc : Nat → Nat} {a b : Nat}
    (h : keyLt acc a b) : ¬ keyLt acc b a := by
  intro h2
  exact keyLt_irrefl acc a (keyLt_trans h h2)

theorem keyLt_trichotomy (acc : Nat → Nat) (a b : Nat) :
    keyLt acc a b ∨ a = b ∨ keyLt acc b a := by
  rcases Nat.lt_trichotomy (acc a) (acc b) with h | h | h
  · exact Or.inl (Or.inl h)
  · rcases Nat.lt_trichotomy a b with hi | hi | hi
    · exact Or.inl (Or.inr ⟨h, hi⟩)
    · exact Or.inr (Or.inl hi)
    · exact Or.inr (Or.inr (Or.inr ⟨h.symm, hi⟩))
  · exact Or.inr (Or.inr (Or.inl h))

theorem not_keyLt_iff {acc : Nat → Nat} {a b : Nat} :
    ¬ keyLt acc a b ↔ keyLt acc b a ∨ a = b := by
  constructor
  · intro h
    rcases keyLt_trichotomy acc a b with h1 | h1 | h1
    · exact absurd h1 h
    · exact Or.inr h1
    · exact Or.inl h1
  · rintro (h | rfl)
    · exact keyLt_asymm h
    · exact keyLt_irrefl acc a

/-- The sign of the engine comparator decides `≺`: nonnegative exactly when the
first cell is not strictly below the second. -/
theorem add_rsv_compare_nonneg_iff (acc : Nat → Nat) (a b : Nat) :
    0 ≤ add_rsv_compare acc a b ↔ ¬ keyLt acc a b := by
  unfold add_rsv_compare keyLt
  split_ifs with h1 h2 <;> simp <;> omega

/-- The sign of the engine comparator decides `≻`: positive exactly when the
first cell is strictly above the second. -/
theorem add_rsv_compare_pos_iff (acc : Nat → Nat) (a b : Nat) :
    0 < add_rsv_compare acc a b ↔ keyLt acc b a := by
  unfold add_rsv_compare keyLt
  split_ifs with h1 h2 <;> simp <;> omega

/-! ## List index/update helper lemmas -/

theorem getD_set_eq {l : List Nat} {i : Nat} {a : Nat} (h : i < l.length) :
    (l.set i a).getD i 0 = a := by
  simp [List.getD_eq_getElem?_getD, List.getElem?_set_self', List.getElem?_eq_getElem h]

theorem getD_set_ne {l : List Nat} {i j : Nat} {a : Nat} (h : i ≠ j) :
    (l.set i a).getD j 0 = l.getD j 0 := by
  simp [List.getD_eq_getElem?_getD, List.getElem?_set_ne h]

theorem hSwap_length (l : List Nat) (i j : Nat) :
    (hSwap l i j).length = l.length := by
  simp [hSwap]

theorem getD_hSwap_fst {l : List Nat} {i j : Nat} (hij : i ≠ j) (hi : i < l.length) :
    (hSwap l i j).getD i 0 = l.getD j 0 := by
  unfold hSwap
  rw [getD_set_ne hij.symm, getD_set_eq hi]

theorem getD_hSwap_snd {l : List Nat} {i j : Nat} (hj : j < l.length) :
    (hSwap l i j).getD j 0 = l.getD i 0 := by
  unfold hSwap
  rw [getD_set_eq]
  simpa using hj

theorem getD_hSwap_other {l : List Nat} {i j k : Nat} (hik : k ≠ i) (hjk : k ≠ j) :
    (hSwap l i j).getD k 0 = l.getD k 0 := by
  unfold hSwap
  rw [getD_set_ne (Ne.symm hjk), getD_set_ne (Ne.symm hik)]

/-- Moving the `j`-th entry to the front and overwriting position `j` with `a`
permutes the list into `a` placed at the front instead. -/
theorem cons_getD_set_perm (a : Nat) :
    ∀ (t : List Nat) (j : Nat), j < t.length →
      (t.getD j 0 :: t.set j a).Perm (a :: t) := by
  intro t
  induction t with
  | nil => intro j hj; simp at hj
  | cons b t0 ih =>
    intro j hj
    cases j with
    | zero => simpa using List.Perm.swap a b t0
    | succ j0 =>
      have hj0 : j0 < t0.length := by simpa using hj
      have step : (t0.getD j0 0 :: b :: t0.set j0 a).Perm (b :: t0.getD j0 0 :: t0.set j0 a) :=
        List.Perm.swap b (t0.getD j0 0) (t0.set j0 a)
      have mid : (b :: t0.getD j0 0 :: t0.set j0 a).Perm (b :: a :: t0) :=
        (ih j0 hj0).cons b
    /- reorder `b` and `a` at the front -/
      have fin : (b :: a :: t0).Perm (a :: b :: t0) := List.Perm.swap a b t0
      simpa using (step.trans mid).trans fin

theorem hSwap_perm {l : List Nat} {i j : Nat} (hi : i < l.length) (hj : j < l.length) :
    (hSwap l i j).Perm l := by
  induction l generalizing i j with
  | nil => simp at hi
  | cons b t ih =>
    cases i with
    | zero =>
      cases j with
      | zero => simp [hSwap]
      | succ j0 =>
        have hj0 : j0 < t.length := by simpa using hj
        have : hSwap (b :: t) 0 (j0 + 1) = t.getD j0 0 :: t.set j0 b := by
          simp [hSwap]
        rw [this]
        exact cons_getD_set_perm b t j0 hj0
    | succ i0 =>
      cases j with
      | zero =>
        have hi0 : i0 < t.length := by simpa using hi
        have : hSwap (b :: t) (i0 + 1) 0 = t.getD i0 0 :: t.set i0 b := by
          simp [hSwap]
        rw [this]
        exact cons_getD_set_perm b t i0 hi0
      | succ j0 =>
        have hi0 : i0 < t.length := by simpa using hi
        have hj0 : j0 < t.length := by simpa using hj
        have : hSwap (b :: t) (i0 + 1) (j0 + 1) = b :: hSwap t i0 j0 := by
          simp [hSwap]
        rw [this]
        exact (ih hi0 hj0).cons b

theorem smallestChild_cases (acc : Nat → Nat) (l : List Nat) (i : Nat) :
    smallestChild acc l i = i ∨
      ((smallestChild acc l i = 2 * i + 1 ∨ smallestChild acc l i = 2 * i + 2) ∧
        smallestChild acc l i < l.length ∧
        keyLt acc (l.getD (smallestChild acc l i) 0) (l.getD i 0) ∧
        ∀ c, (c = 2 * i + 1 ∨ c = 2 * i + 2) → c < l.length →
          ¬ keyLt acc (l.getD c 0) (l.getD (smallestChild acc l i) 0)) := by
  unfold smallestChild
  split_ifs with h1 h2 h3
  · -- first child smaller than i, second child smaller than first
    refine Or.inr ⟨Or.inr rfl, h2.1, keyLt_trans h2.2 h1.2, ?_⟩
    intro c hc hcl
    rcases hc with rfl | rfl
    · exact keyLt_asymm h2.2
    · exact keyLt_irrefl acc _
  · -- first child smaller than i, second not smaller than first
    refine Or.inr ⟨Or.inl rfl, h1.1, h1.2, ?_⟩
    intro c hc hcl
    rcases hc with rfl | rfl
    · exact keyLt_irrefl acc _
    · intro hk; exact h2 ⟨hcl, hk⟩
  · -- first child not smaller than i, second smaller than i
    refine Or.inr ⟨Or.inr rfl, h3.1, h3.2, ?_⟩
    intro c hc hcl
    rcases hc with rfl | rfl
    · intro hk
      exact h1 ⟨hcl, keyLt_trans hk h3.2⟩
    · exact keyLt_irrefl acc _
  · exact Or.inl rfl

theorem smallestChild_self (acc : Nat → Nat) (l : List Nat) (i : Nat)
    (h : smallestChild acc l i = i) :
    ∀ c, (c = 2 * i + 1 ∨ c = 2 * i + 2) → c < l.length →
      ¬ keyLt acc (l.getD c 0) (l.getD i 0) := by
  rcases smallestChild_cases acc l i with heq | ⟨_, _, hlt, _⟩
  · intro c hc hcl
    unfold smallestChild at h
    split_ifs at h with h1 h2 h3
    · omega
    · omega
    · omega
    · rcases hc with rfl | rfl
      · intro hk; exact h1 ⟨hcl, hk⟩
      · intro hk; exact h3 ⟨hcl, hk⟩
  · rw [h] at hlt
    exact absurd hlt (keyLt_irrefl acc _)

/-- Sift-down correctness, by induction on the fuel.  If every parent-child
edge with parent strictly below the start position is ordered, then after
sifting down from `i`: the list is permuted; positions other than `i` before
the first child of `i` are untouched; position `i` holds its old value or an
old child value; and every edge with parent at or below `i` is ordered. -/
theorem siftDownF_spec (acc : Nat → Nat) :
    ∀ (fuel : Nat) (l : List Nat) (i : Nat),
      l.length - i ≤ fuel →
      (∀ p c, (c = 2 * p + 1 ∨ c = 2 * p + 2) → c < l.length → i < p →
        ¬ keyLt acc (l.getD c 0) (l.getD p 0)) →
      (siftDownF acc fuel l i).Perm l ∧
      (∀ j, j ≠ i → j < 2 * i + 1 → (siftDownF acc fuel l i).getD j 0 = l.getD j 0) ∧
      ((siftDownF acc fuel l i).getD i 0 = l.getD i 0 ∨
        ∃ c, (c = 2 * i + 1 ∨ c = 2 * i + 2) ∧ c < l.length ∧
          (siftDownF acc fuel l i).getD i 0 = l.getD c 0) ∧
      HeapFromIdx acc (siftDownF acc fuel l i) i := by
  intro fuel
  induction fuel with
  | zero =>
    intro l i hfuel hp
    have hli : l.length ≤ i := by omega
    refine ⟨by simp [siftDownF], by simp [siftDownF], Or.inl (by simp [siftDownF]), ?_⟩
    intro p c hc hcl hip
    simp only [siftDownF] at hcl ⊢
    omega
  | succ fuel ih =>
    intro l i hfuel hp
    by_cases hmi : smallestChild acc l i = i
    · have hres : siftDownF acc (fuel + 1) l i = l := by
        simp [siftDownF, hmi]
      rw [hres]
      refine ⟨List.Perm.refl l, fun j _ _ => rfl, Or.inl rfl, ?_⟩
      intro p c hc hcl hip
      rcases Nat.eq_or_lt_of_le hip with heq | hlt
      · subst heq
        exact smallestChild_self acc l _ hmi c hc hcl
      · exact hp p c hc hcl hlt
    · rcases smallestChild_cases acc l i with heq | ⟨hchild, hmlen, hmlt, hmin⟩
      · exact absurd heq hmi
      set m := smallestChild acc l i with hmdef
      have him : i < m := by omega
      have hil : i < l.length := lt_trans him hmlen
      have hres : siftDownF acc (fuel + 1) l i = siftDownF acc fuel (hSwap l i m) m := by
        simp only [siftDownF]
        rw [← hmdef, if_neg hmi]
      have hl2len : (hSwap l i m).length = l.length := hSwap_length l i m
      -- values in the swapped list
      have hl2i : (hSwap l i m).getD i 0 = l.getD m 0 :=
        getD_hSwap_fst (by omega) hil
      have hl2m : (hSwap l i m).getD m 0 = l.getD i 0 := getD_hSwap_snd hmlen
      have hl2other : ∀ k, k ≠ i → k ≠ m → (hSwap l i m).getD k 0 = l.getD k 0 :=
        fun k h1 h2 => getD_hSwap_other h1 h2
      -- the inductive hypothesis applies to the swapped list at position m
      have hp2 : ∀ p c, (c = 2 * p + 1 ∨ c = 2 * p + 2) → c < (hSwap l i m).length →
          m < p → ¬ keyLt acc ((hSwap l i m).getD c 0) ((hSwap l i m).getD p 0) := by
        intro p c hc hcl hmp
        rw [hl2other p (by omega) (by omega), hl2other c (by omega) (by omega)]
        exact hp p c hc (by rwa [hl2len] at hcl) (by omega)
      obtain ⟨rperm, rout, rtop, rheap⟩ :=
        ih (hSwap l i m) m (by omega) hp2
      rw [hres]
      set r := siftDownF acc fuel (hSwap l i m) m with hrdef
      have hrlen : r.length = l.length := by rw [rperm.length_eq, hl2len]
      have hri : r.getD i 0 = l.getD m 0 := by
        rw [rout i (by omega) (by omega), hl2i]
      refine ⟨rperm.trans (hSwap_perm hil hmlen), ?_, ?_, ?_⟩
      · -- positions below the first child of i, other than i, are untouched
        intro j hji hjlt
        rw [rout j (by omega) (by omega), hl2other j hji (by omega)]
      · -- position i now holds the old child value at m
        exact Or.inr ⟨m, hchild, hmlen, hri⟩
      · -- every edge with parent at or below i is ordered in r
        intro p c hc hcl hip
        rw [hrlen] at hcl
        by_cases hpm : m ≤ p
        · exact rheap p c hc (by rwa [hrlen]) hpm
        · push_neg at hpm
          have hclt : c < 2 * m + 1 := by omega
          rcases Nat.eq_or_lt_of_le hip with heq | hplt
          · -- parent is i itself
            have hpi : p = i := heq.symm
            subst hpi
            rw [hri]
            by_cases hceqm : c = m
            · -- the edge from i to the swapped-in child position m
              subst hceqm
              rcases rtop with htop | ⟨c1, hc1, hc1len, hc1eq⟩
              · rw [htop, hl2m]
                exact keyLt_asymm hmlt
              · rw [hc1eq, hl2other c1 (by omega) (by omega)]
                exact hp m c1 hc1 (by rwa [hl2len] at hc1len) him
            · have hrc : r.getD c 0 = l.getD c 0 := by
                rw [rout c hceqm (by omega), hl2other c (by omega) hceqm]
              rw [hrc]
              exact hmin c hc hcl
          · -- i < p < m: untouched edge
            have hcm : c ≠ m := by
              intro hcme
              -- the parent of m is i, contradicting i < p
              rcases hc with hc | hc <;> rcases hchild with hch | hch <;> omega
            have hrc : r.getD c 0 = l.getD c 0 := by
              rw [rout c hcm (by omega), hl2other c (by omega) hcm]
            have hrp : r.getD p 0 = l.getD p 0 := by
              rw [rout p (by omega) (by omega), hl2other p (by omega) (by omega)]
            rw [hrc, hrp]
            exact hp p c hc hcl hplt

/-- Transitivity of the non-strict order `⪰` induced by `≺`. -/
theorem not_keyLt_trans {acc : Nat → Nat} {a b c : Nat}
    (h₁ : ¬ keyLt acc a b) (h₂ : ¬ keyLt acc b c) : ¬ keyLt acc a c := by
  rcases not_keyLt_iff.mp h₁ with h₁ | rfl
  · rcases not_keyLt_iff.mp h₂ with h₂ | rfl
    · exact keyLt_asymm (keyLt_trans h₂ h₁)
    · exact keyLt_asymm h₁
  · exact h₂

/-- `≺` only depends on the two cells' values and indices. -/
theorem keyLt_congr {acc acc2 : Nat → Nat} {a b : Nat}
    (ha : acc2 a = acc a) (hb : acc2 b = acc b) :
    keyLt acc2 a b ↔ keyLt acc a b := by
  unfold keyLt
  rw [ha, hb]

/-- Raising the value of the left cell (only) cannot create a `≺`-descent. -/
theorem not_keyLt_of_raise {acc acc2 : Nat → Nat} {a b : Nat}
    (ha : acc a ≤ acc2 a) (hb : acc2 b = acc b) (h : ¬ keyLt acc a b) :
    ¬ keyLt acc2 a b := by
  unfold keyLt at h ⊢
  rw [hb]
  push_neg at h ⊢
  omega

/-- `siftDown` with the edges below the start position ordered: permutation,
untouched low positions, provenance of the start value, ordered result. -/
theorem siftDown_spec (acc : Nat → Nat) (l : List Nat) (i : Nat)
    (hp : ∀ p c, (c = 2 * p + 1 ∨ c = 2 * p + 2) → c < l.length → i < p →
      ¬ keyLt acc (l.getD c 0) (l.getD p 0)) :
    (siftDown acc l i).Perm l ∧
    (∀ j, j ≠ i → j < 2 * i + 1 → (siftDown acc l i).getD j 0 = l.getD j 0) ∧
    ((siftDown acc l i).getD i 0 = l.getD i 0 ∨
      ∃ c, (c = 2 * i + 1 ∨ c = 2 * i + 2) ∧ c < l.length ∧
        (siftDown acc l i).getD i 0 = l.getD c 0) ∧
    HeapFromIdx acc (siftDown acc l i) i :=
  siftDownF_spec acc l.length l i (by omega) hp

theorem heapifyFrom_spec (acc : Nat → Nat) :
    ∀ (k : Nat) (l : List Nat), HeapFromIdx acc l k →
      (heapifyFrom acc k l).Perm l ∧ IsHeap acc (heapifyFrom acc k l) := by
  intro k
  induction k with
  | zero => intro l h; exact ⟨List.Perm.refl l, h⟩
  | succ k ih =>
    intro l h
    have hp : ∀ p c, (c = 2 * p + 1 ∨ c = 2 * p + 2) → c < l.length → k < p →
        ¬ keyLt acc (l.getD c 0) (l.getD p 0) :=
      fun p c hc hcl hkp => h p c hc hcl (by omega)
    obtain ⟨sperm, _, _, sheap⟩ := siftDown_spec acc l k hp
    obtain ⟨rperm, rheap⟩ := ih (siftDown acc l k) sheap
    exact ⟨rperm.trans sperm, rheap⟩

/-- `make_heap` permutes the pointer array into a min-heap. -/
theorem make_heap_spec (acc : Nat → Nat) (l : List Nat) :
    (make_heap acc l).Perm l ∧ IsHeap acc (make_heap acc l) := by
  apply heapifyFrom_spec
  intro p c hc hcl hp
  omega

/-- In a min-heap, the root is `⪯` every entry. -/
theorem isHeap_root_min {acc : Nat → Nat} {l : List Nat} (h : IsHeap acc l) :
    ∀ j, j < l.length → ¬ keyLt acc (l.getD j 0) (l.getD 0 0) := by
  intro j
  induction j using Nat.strong_induction_on with
  | _ j ihj =>
    intro hj
    cases Nat.eq_zero_or_pos j with
    | inl h0 => rw [h0]; exact keyLt_irrefl acc _
    | inr hpos =>
      have hedge : j = 2 * ((j - 1) / 2) + 1 ∨ j = 2 * ((j - 1) / 2) + 2 := by omega
      have hlt : (j - 1) / 2 < j := by omega
      have h₁ := h ((j - 1) / 2) j hedge hj (Nat.zero_le _)
      have h₂ := ihj ((j - 1) / 2) hlt (lt_trans hlt hj)
      exact not_keyLt_trans h₁ h₂

/-- An induced-key heap is insensitive to value changes outside its entries. -/
theorem isHeap_congr {acc acc2 : Nat → Nat} {l : List Nat}
    (hsame : ∀ y ∈ l, acc2 y = acc y) (h : IsHeap acc l) : IsHeap acc2 l := by
  intro p c hc hcl hp0
  have hpl : p < l.length := by omega
  have hmc : l.getD c 0 ∈ l := by
    rw [List.getD_eq_getElem _ _ hcl]; exact List.getElem_mem _
  have hmp : l.getD p 0 ∈ l := by
    rw [List.getD_eq_getElem _ _ hpl]; exact List.getElem_mem _
  rw [keyLt_congr (hsame _ hmc) (hsame _ hmp)]
  exact h p c hc hcl hp0

/-- `promote` on a tracked cell whose value just rose: the array is permuted
and the heap property holds again under the updated values. -/
theorem promote_spec (acc acc2 : Nat → Nat) (l : List Nat) (x : Nat)
    (hmem : x ∈ l) (hnd : l.Nodup) (hheap : IsHeap acc l)
    (hsame : ∀ y, y ≠ x → acc2 y = acc y) (hmono : acc x ≤ acc2 x) :
    (promote acc2 l x).Perm l ∧ IsHeap acc2 (promote acc2 l x) := by
  have hidx : l.indexOf x < l.length := List.indexOf_lt_length.mpr hmem
  have hgetidx : l.getD (l.indexOf x) 0 = x := by
    rw [List.getD_eq_getElem _ _ hidx]
    exact List.getElem_indexOf hidx
  -- entries at other positions differ from x
  have hother : ∀ p, p < l.length → p ≠ l.indexOf x → l.getD p 0 ≠ x := by
    intro p hpl hpne hcontra
    rw [List.getD_eq_getElem _ _ hpl] at hcontra
    have : l[p] = l[l.indexOf x] := by
      rw [hcontra, List.getElem_indexOf hidx]
    exact hpne ((hnd.getElem_inj_iff).mp this)
  have hp : ∀ p c, (c = 2 * p + 1 ∨ c = 2 * p + 2) → c < l.length →
      l.indexOf x < p → ¬ keyLt acc2 (l.getD c 0) (l.getD p 0) := by
    intro p c hc hcl hip
    rw [keyLt_congr (hsame _ (hother c hcl (by omega))) (hsame _ (hother p (by omega) (by omega)))]
    exact hheap p c hc hcl (Nat.zero_le _)
  obtain ⟨sperm, sout, stop, sheap⟩ := siftDown_spec acc2 l (l.indexOf x) hp
  refine ⟨sperm, ?_⟩
  show IsHeap acc2 (siftDown acc2 l (List.indexOf x l))
  intro p c hc hcl hp0
  rw [sperm.length_eq] at hcl
  by_cases hpi : l.indexOf x ≤ p
  · exact sheap p c hc (by rwa [sperm.length_eq]) hpi
  · push_neg at hpi
    have hclow : c < 2 * l.indexOf x + 1 := by omega
    have hpval : (siftDown acc2 l (l.indexOf x)).getD p 0 = l.getD p 0 :=
      sout p (by omega) (by omega)
    by_cases hci : c = l.indexOf x
    · -- the edge into the promoted position
      subst hci
      rw [hpval]
      rcases stop with htop | ⟨c1, hc1, hc1len, hc1eq⟩
      · rw [htop, hgetidx]
        have hold : ¬ keyLt acc x (l.getD p 0) := by
          have := hheap p (List.indexOf x l) hc hcl (Nat.zero_le _)
          rwa [hgetidx] at this
        exact not_keyLt_of_raise hmono (hsame _ (hother p (by omega) (by omega))) hold
      · rw [hc1eq]
        have hc1ne : l.getD c1 0 ≠ x := hother c1 hc1len (by omega)
        rw [keyLt_congr (hsame _ hc1ne) (hsame _ (hother p (by omega) (by omega)))]
        have e1 : ¬ keyLt acc (l.getD c1 0) (l.getD (List.indexOf x l) 0) :=
          hheap (List.indexOf x l) c1 hc1 hc1len (Nat.zero_le _)
        have e2 : ¬ keyLt acc (l.getD (List.indexOf x l) 0) (l.getD p 0) :=
          hheap p (List.indexOf x l) hc hcl (Nat.zero_le _)
        exact not_keyLt_trans e1 e2
    · -- an untouched edge entirely below the promoted position
      have hcval : (siftDown acc2 l (l.indexOf x)).getD c 0 = l.getD c 0 :=
        sout c hci (by omega)
      rw [hpval, hcval]
      rw [keyLt_congr (hsame _ (hother c hcl hci)) (hsame _ (hother p (by omega) (by omega)))]
      exact hheap p c hc hcl (Nat.zero_le _)

/-- `push_back` (replace-min): overwrite the root and sift down; the result is
a permutation of the overwritten array and a min-heap again. -/
theorem push_back_spec (acc : Nat → Nat) (l : List Nat) (x : Nat)
    (hheap : IsHeap acc l) :
    (push_back acc l x).Perm (l.set 0 x) ∧ IsHeap acc (push_back acc l x) := by
  have hp : ∀ p c, (c = 2 * p + 1 ∨ c = 2 * p + 2) → c < (l.set 0 x).length →
      0 < p → ¬ keyLt acc ((l.set 0 x).getD c 0) ((l.set 0 x).getD p 0) := by
    intro p c hc hcl hp0
    rw [List.length_set] at hcl
    rw [getD_set_ne (by omega), getD_set_ne (by omega)]
    exact hheap p c hc hcl (Nat.zero_le _)
  obtain ⟨sperm, _, _, sheap⟩ := siftDown_spec acc (l.set 0 x) 0 hp
  exact ⟨sperm, sheap⟩

/-! ## Correctness of the descending sort -/

theorem insertDesc_perm (acc : Nat → Nat) (d : Nat) (l : List Nat) :
    (insertDesc acc d l).Perm (d :: l) := by
  induction l with
  | nil => simp [insertDesc]
  | cons e es ih =>
    by_cases h : keyLt acc e d
    · simp [insertDesc, h]
    · simp only [insertDesc, if_neg h]
      exact (ih.cons e).trans (List.Perm.swap d e es)

theorem sortDesc_perm (acc : Nat → Nat) (l : List Nat) :
    (sortDesc acc l).Perm l := by
  induction l with
  | nil => simp [sortDesc]
  | cons d ds ih =>
    exact (insertDesc_perm acc d (sortDesc acc ds)).trans (ih.cons d)

theorem insertDesc_sorted (acc : Nat → Nat) (d : Nat) (l : List Nat)
    (h : l.Pairwise fun a b => ¬ keyLt acc a b) :
    (insertDesc acc d l).Pairwise fun a b => ¬ keyLt acc a b := by
  induction l with
  | nil => simp [insertDesc]
  | cons e es ih =>
    rcases List.pairwise_cons.mp h with ⟨he, hes⟩
    by_cases hlt : keyLt acc e d
    · simp only [insertDesc, if_pos hlt]
      refine List.pairwise_cons.mpr ⟨?_, h⟩
      intro y hy
      rcases List.mem_cons.mp hy with rfl | hy
      · exact keyLt_asymm hlt
      · intro hdy
        rcases not_keyLt_iff.mp (he y hy) with hye | rfl
        · exact keyLt_asymm hlt (keyLt_trans hdy hye)
        · exact keyLt_asymm hlt hdy
    · simp only [insertDesc, if_neg hlt]
      refine List.pairwise_cons.mpr ⟨?_, ih hes⟩
      intro y hy
      rcases List.mem_cons.mp ((insertDesc_perm acc d es).mem_iff.mp hy) with rfl | hy
      · exact hlt
      · exact he y hy

theorem sortDesc_sorted (acc : Nat → Nat) (l : List Nat) :
    (sortDesc acc l).Pairwise fun a b => ¬ keyLt acc a b := by
  induction l with
  | nil => simp [sortDesc]
  | cons d ds ih => exact insertDesc_sorted acc d (sortDesc acc ds) ih

/-- On a duplicate-free list, non-ascending pairwise order is strictly
descending (the index tie-break makes distinct cells comparable). -/
theorem pairwise_strict_of_nodup {acc : Nat → Nat} {l : List Nat}
    (hs : l.Pairwise fun a b => ¬ keyLt acc a b) (hnd : l.Nodup) :
    l.Pairwise fun a b => keyLt acc b a := by
  have := hs.and hnd
  refine this.imp ?_
  rintro a b ⟨hab, hne⟩
  rcases not_keyLt_iff.mp hab with h | rfl
  · exact h
  · exact absurd rfl hne

/-- Two strictly descending lists with the same elements coincide. -/
theorem sorted_perm_unique {acc : Nat → Nat} :
    ∀ {l₁ l₂ : List Nat}, (l₁.Pairwise fun a b => keyLt acc b a) →
      (l₂.Pairwise fun a b => keyLt acc b a) → l₁.Perm l₂ → l₁ = l₂ := by
  intro l₁
  induction l₁ with
  | nil =>
    intro l₂ _ _ hperm
    exact (hperm.nil_eq).symm ▸ rfl
  | cons a t₁ ih =>
    intro l₂ h₁ h₂ hperm
    cases l₂ with
    | nil => exact absurd hperm.symm.nil_eq (by simp)
    | cons b t₂ =>
      rcases List.pairwise_cons.mp h₁ with ⟨ha, ht₁⟩
      rcases List.pairwise_cons.mp h₂ with ⟨hb, ht₂⟩
      have hab : a = b := by
        have hma : a ∈ b :: t₂ := hperm.mem_iff.mp (List.mem_cons_self a t₁)
        have hmb : b ∈ a :: t₁ := hperm.symm.mem_iff.mp (List.mem_cons_self b t₂)
        rcases List.mem_cons.mp hma with rfl | hma
        · rfl
        · rcases List.mem_cons.mp hmb with rfl | hmb
          · rfl
          · exact absurd (hb a hma) (keyLt_asymm (ha b hmb))
      subst hab
      have := ih ht₁ ht₂ hperm.cons_inv
      rw [this]

/-! ## Brute-force totals: basic algebra -/

theorem totals_nil (d : Nat) : totals [] d = 0 := rfl

theorem totals_append (g₁ g₂ : List (Nat × Nat)) (d : Nat) :
    totals (g₁ ++ g₂) d = totals g₁ d + totals g₂ d := by
  simp [totals, List.filter_append]

theorem totals_singleton (a b d : Nat) :
    totals [(a, b)] d = if a = d then b else 0 := by
  by_cases h : a = d <;> simp [totals, h]

theorem totals_eq_zero (g : List (Nat × Nat)) (d : Nat)
    (h : ∀ p ∈ g, p.1 ≠ d) : totals g d = 0 := by
  unfold totals
  have : g.filter (fun p => p.1 = d) = [] := by
    rw [List.filter_eq_nil_iff]
    intro p hp
    simp [h p hp]
  rw [this]
  rfl

theorem exists_of_totals_pos {g : List (Nat × Nat)} {d : Nat}
    (h : 0 < totals g d) : ∃ p ∈ g, p.1 = d := by
  by_contra hc
  push_neg at hc
  rw [totals_eq_zero g d hc] at h
  exact absurd h (by omega)

theorem totals_pos_of_mem {g : List (Nat × Nat)} {d : Nat}
    (hpos : ∀ p ∈ g, 0 < p.2) (h : ∃ p ∈ g, p.1 = d) : 0 < totals g d := by
  obtain ⟨p, hp, hpd⟩ := h
  unfold totals
  have hmem : p ∈ g.filter (fun q => q.1 = d) := by
    rw [List.mem_filter]
    exact ⟨hp, by simp [hpd]⟩
  have : p.2 ∈ (g.filter (fun q => q.1 = d)).map Prod.snd := List.mem_map_of_mem _ hmem
  calc 0 < p.2 := hpos p hp
    _ ≤ _ := List.single_le_sum (fun x _ => Nat.zero_le x) _ this

theorem totals_le_append (g₁ g₂ : List (Nat × Nat)) (d : Nat) :
    totals g₁ d ≤ totals (g₁ ++ g₂) d := by
  rw [totals_append]
  omega

theorem totals_perm {g₁ g₂ : List (Nat × Nat)} (h : g₁.Perm g₂) (d : Nat) :
    totals g₁ d = totals g₂ d := by
  unfold totals
  exact ((h.filter _).map _).sum_eq

/-! ## Strip arithmetic (constructor geometry) -/

/-- Characterisation of the strip of a cell: `j >>> S = t` exactly when `j`
lies in the `t`-th block of `2^S` consecutive cells. -/
theorem strip_interval {S j t : Nat} :
    j >>> S = t ↔ 2 ^ S * t ≤ j ∧ j < 2 ^ S * t + 2 ^ S := by
  rw [Nat.shiftRight_eq_div_pow]
  have hW : 0 < 2 ^ S := Nat.pos_pow_of_pos S (by omega)
  constructor
  · intro h
    have hdm := Nat.div_add_mod j (2 ^ S)
    have hml : j % 2 ^ S < 2 ^ S := Nat.mod_lt _ hW
    subst h
    omega
  · rintro ⟨h1, h2⟩
    have := Nat.div_add_mod j (2 ^ S)
    have hml : j % 2 ^ S < 2 ^ S := Nat.mod_lt _ hW
    have hle : t ≤ j / 2 ^ S := by
      rw [Nat.le_div_iff_mul_le hW, Nat.mul_comm]
      omega
    have hlt : j / 2 ^ S < t + 1 := by
      rw [Nat.div_lt_iff_lt_mul hW, Nat.add_mul, Nat.one_mul, Nat.mul_comm t]
      omega
    omega

/-- Every valid document indexes a strip below `accumulators_height`
(for the source height formula `(documents + width) / width`, whatever shift
the constructor computed). -/
theorem strip_lt_height_general (documents docid S : Nat) (h : docid < documents) :
    docid >>> S < (documents + 2 ^ S) / 2 ^ S := by
  rw [Nat.shiftRight_eq_div_pow]
  have hW : 0 < 2 ^ S := Nat.pos_pow_of_pos S (by omega)
  rw [Nat.add_div_right _ hW]
  have : docid / 2 ^ S ≤ documents / 2 ^ S :=
    Nat.div_le_div_right (Nat.le_of_lt h)
  omega

/-- Every valid document's cell lies inside the `width × height` table. -/
theorem docid_lt_table_general (documents docid S : Nat) (h : docid < documents) :
    docid < 2 ^ S * ((documents + 2 ^ S) / 2 ^ S) := by
  have hW : 0 < 2 ^ S := Nat.pos_pow_of_pos S (by omega)
  rw [Nat.add_div_right _ hW]
  have hdm := Nat.div_add_mod documents (2 ^ S)
  have hml : documents % 2 ^ S < 2 ^ S := Nat.mod_lt _ hW
  have : documents < 2 ^ S * (documents / 2 ^ S) + 2 ^ S := by omega
  calc docid < documents := h
    _ ≤ 2 ^ S * (documents / 2 ^ S + 1) := by
      rw [Nat.mul_add, Nat.mul_one]
      omega

theorem strip_lt_height {documents docid : Nat} (h : docid < documents) :
    docid >>> accumulators_shift documents < accumulators_height documents :=
  strip_lt_height_general documents docid _ h

/-! ## The dirty-flag / accumulator-value invariant -/

theorem lazyClear_ptrs (documents : Nat) (s : QState) (d : Nat) :
    (lazyClear documents s d).ptrs = s.ptrs := by
  unfold lazyClear
  dsimp only
  split_ifs <;> rfl

/-- In every branch, `add_rsv` leaves the dirty flags as the lazy-clear
prologue set them. -/
theorem add_rsv_clean (documents top_k : Nat) (s : QState) (d sc : Nat) :
    (add_rsv documents top_k s d sc).clean = (lazyClear documents s d).clean := by
  unfold add_rsv
  dsimp only
  split_ifs <;> rfl

/-- In every branch, `add_rsv` adds the score into cell `d` (modulo the cell
width) and touches no other cell beyond the lazy-clear prologue. -/
theorem add_rsv_acc (documents top_k : Nat) (s : QState) (d sc : Nat) :
    (add_rsv documents top_k s d sc).acc = fun j =>
      if j = d then ((lazyClear documents s d).acc d + sc) % accumulatorMod
      else (lazyClear documents s d).acc j := by
  unfold add_rsv
  dsimp only
  split_ifs <;> rfl

theorem accInv_rewind (documents : Nat) (s : QState) :
    AccInv documents [] (rewind documents s) := by
  constructor
  · intro t ht
    simp [rewind, ht]
  · intro j hj hflag
    simp only [rewind] at hflag
    rw [if_pos hj] at hflag
    exact absurd hflag (by simp)

/-- `strip_interval` phrased with the constructor geometry. -/
theorem strip_interval_width {documents j t : Nat} :
    j >>> accumulators_shift documents = t ↔
      accumulators_width documents * t ≤ j ∧
        j < accumulators_width documents * t + accumulators_width documents := by
  unfold accumulators_width
  exact strip_interval

theorem accInv_add (documents top_k : Nat) (g : List (Nat × Nat)) (s : QState)
    (d sc : Nat) (hd : d < documents) (hAcc : AccInv documents g s) :
    AccInv documents (g ++ [(d, sc)]) (add_rsv documents top_k s d sc) := by
  obtain ⟨hA1, hA2⟩ := hAcc
  have htH : d >>> accumulators_shift documents < accumulators_height documents :=
    strip_lt_height hd
  have hdint : accumulators_width documents * (d >>> accumulators_shift documents) ≤ d ∧
      d < accumulators_width documents * (d >>> accumulators_shift documents) +
        accumulators_width documents :=
    strip_interval_width.mp rfl
  have hmemiff : ∀ t, (∃ p ∈ g ++ [(d, sc)], p.1 >>> accumulators_shift documents = t) ↔
      ((∃ p ∈ g, p.1 >>> accumulators_shift documents = t) ∨
        d >>> accumulators_shift documents = t) := by
    intro t
    constructor
    · rintro ⟨p, hp, hps⟩
      rcases List.mem_append.mp hp with hp | hp
      · exact Or.inl ⟨p, hp, hps⟩
      · rw [List.mem_singleton.mp hp] at hps
        exact Or.inr hps
    · rintro (⟨p, hp, hps⟩ | hps)
      · exact ⟨p, List.mem_append.mpr (Or.inl hp), hps⟩
      · exact ⟨(d, sc), List.mem_append.mpr (Or.inr (List.mem_singleton_self _)), hps⟩
  have htot : ∀ j, totals (g ++ [(d, sc)]) j = totals g j + if j = d then sc else 0 := by
    intro j
    rw [totals_append, totals_singleton]
    by_cases hjd : j = d
    · simp [hjd]
    · have hdj : ¬ d = j := fun h => hjd h.symm
      simp [hjd, hdj]
  unfold AccInv
  rw [add_rsv_clean, add_rsv_acc]
  by_cases hflag : s.clean (d >>> accumulators_shift documents) = false
  · -- the strip of d is freshly cleared
    have hcleanEq : ∀ t, (lazyClear documents s d).clean t =
        if t = d >>> accumulators_shift documents then true else s.clean t := by
      intro t
      unfold lazyClear
      rw [if_pos hflag]
    have haccEq : ∀ j, (lazyClear documents s d).acc j =
        if accumulators_width documents * (d >>> accumulators_shift documents) ≤ j ∧
            j < accumulators_width documents * (d >>> accumulators_shift documents) +
              accumulators_width documents
          then 0 else s.acc j := by
      intro j
      unfold lazyClear
      rw [if_pos hflag]
    have hnone : ∀ p ∈ g, p.1 >>> accumulators_shift documents ≠
        d >>> accumulators_shift documents := by
      intro p hp hcontra
      have := (hA1 _ htH).mpr ⟨p, hp, hcontra⟩
      rw [this] at hflag
      exact absurd hflag (by simp)
    have hstripz : ∀ j, j >>> accumulators_shift documents =
        d >>> accumulators_shift documents → totals g j = 0 := by
      intro j hjs
      apply totals_eq_zero
      intro p hp hpj
      exact hnone p hp (by rw [hpj, hjs])
    constructor
    · intro t ht
      rw [hcleanEq t, hmemiff t, ← hA1 t ht]
      by_cases hteq : t = d >>> accumulators_shift documents
      · simp [hteq]
      · have hteq2 : ¬ d >>> accumulators_shift documents = t := fun h => hteq h.symm
        simp [hteq, hteq2]
    · intro j hjH hjflag
      rw [htot j]
      dsimp only
      by_cases hjd : j = d
      · rw [hjd] at hjflag hjH ⊢
        have hz : totals g d = 0 := hstripz d rfl
        have hacc0 : (lazyClear documents s d).acc d = 0 := by
          rw [haccEq d, if_pos hdint]
        simp [hacc0, hz]
      · have hlhs : (if j = d
            then ((lazyClear documents s d).acc d + sc) % accumulatorMod
            else (lazyClear documents s d).acc j) = (lazyClear documents s d).acc j :=
          if_neg hjd
        rw [hlhs, if_neg hjd, Nat.add_zero]
        by_cases hjs : j >>> accumulators_shift documents =
            d >>> accumulators_shift documents
        · have hz : totals g j = 0 := hstripz j hjs
          have hacc0 : (lazyClear documents s d).acc j = 0 := by
            rw [haccEq j, if_pos (strip_interval_width.mp hjs)]
          rw [hacc0, hz]
          simp
        · have hjint : ¬ (accumulators_width documents *
              (d >>> accumulators_shift documents) ≤ j ∧
              j < accumulators_width documents * (d >>> accumulators_shift documents) +
                accumulators_width documents) := by
            intro hcontra
            exact hjs (strip_interval_width.mpr hcontra)
          rw [haccEq j, if_neg hjint]
          rw [hcleanEq _, if_neg hjs] at hjflag
          exact hA2 j hjH hjflag
  · -- the strip of d was already flagged: the prologue is the identity
    have hclear : lazyClear documents s d = s := by
      unfold lazyClear
      rw [if_neg hflag]
    rw [hclear]
    have hflag2 : s.clean (d >>> accumulators_shift documents) = true := by
      revert hflag
      cases s.clean (d >>> accumulators_shift documents) <;> simp
    constructor
    · intro t ht
      rw [hA1 t ht, hmemiff t]
      constructor
      · exact Or.inl
      · rintro (h | hps)
        · exact h
        · rw [← hps]
          exact (hA1 _ htH).mp hflag2
    · intro j hjH hjflag
      rw [htot j]
      dsimp only
      by_cases hjd : j = d
      · rw [hjd] at hjflag hjH ⊢
        simp only [if_pos rfl]
        rw [hA2 d hjH hjflag, Nat.mod_add_mod]
        simp
      · simp only [if_neg hjd]
        rw [Nat.add_zero]
        exact hA2 j hjH hjflag

theorem totals_snoc (g : List (Nat × Nat)) (d sc j : Nat) :
    totals (g ++ [(d, sc)]) j = totals g j + if j = d then sc else 0 := by
  rw [totals_append, totals_singleton]
  by_cases hjd : j = d
  · simp [hjd]
  · have hdj : ¬ d = j := fun h => hjd h.symm
    simp [hjd, hdj]

theorem accInv_runAux (documents top_k : Nat) :
    ∀ (h g : List (Nat × Nat)) (s : QState), (∀ p ∈ h, p.1 < documents) →
      AccInv documents g s →
      AccInv documents (g ++ h) (runAdds documents top_k s h) := by
  intro h
  induction h with
  | nil =>
    intro g s _ hInv
    simpa [runAdds] using hInv
  | cons x t ih =>
    intro g s hval hInv
    obtain ⟨xd, xs⟩ := x
    have hstep := accInv_add documents top_k g s xd xs
      (hval (xd, xs) (List.mem_cons_self _ _)) hInv
    have := ih (g ++ [(xd, xs)]) (add_rsv documents top_k s xd xs)
      (fun p hp => hval p (List.mem_cons_of_mem _ hp)) hstep
    have hrw : runAdds documents top_k s ((xd, xs) :: t) =
        runAdds documents top_k (add_rsv documents top_k s xd xs) t := rfl
    rw [hrw]
    rwa [List.append_assoc, List.singleton_append] at this

/-- After a `rewind` and any run of in-range `add_rsv` calls, the
accumulator-side invariant holds with the run itself as the history. -/
theorem accInv_run (documents top_k : Nat) (s0 : QState) (h : List (Nat × Nat))
    (hval : ∀ p ∈ h, p.1 < documents) :
    AccInv documents h (runAdds documents top_k (rewind documents s0) h) := by
  have := accInv_runAux documents top_k h [] (rewind documents s0) hval
    (accInv_rewind documents s0)
  simpa using this

/-! ## Consequences of the lazy-clear prologue -/

/-- After lazy-clearing the strip of the (valid) next document: the cell of
that document and every positive-total cell hold exactly their brute-force
totals, and the pointer list is untouched. -/
theorem lazyClear_props (documents : Nat) (g : List (Nat × Nat)) (s : QState)
    (d : Nat) (hd : d < documents) (hAcc : AccInv documents g s)
    (hover : ∀ j, j < documents → totals g j < accumulatorMod) :
    (lazyClear documents s d).acc d = totals g d ∧
    (∀ dd, dd < documents → 0 < totals g dd →
      (lazyClear documents s d).acc dd = totals g dd) := by
  obtain ⟨hA1, hA2⟩ := hAcc
  have htH : d >>> accumulators_shift documents < accumulators_height documents :=
    strip_lt_height hd
  have hdint : accumulators_width documents * (d >>> accumulators_shift documents) ≤ d ∧
      d < accumulators_width documents * (d >>> accumulators_shift documents) +
        accumulators_width documents :=
    strip_interval_width.mp rfl
  by_cases hflag : s.clean (d >>> accumulators_shift documents) = false
  · have hcleanEq : ∀ t, (lazyClear documents s d).clean t =
        if t = d >>> accumulators_shift documents then true else s.clean t := by
      intro t
      unfold lazyClear
      rw [if_pos hflag]
    have haccEq : ∀ j, (lazyClear documents s d).acc j =
        if accumulators_width documents * (d >>> accumulators_shift documents) ≤ j ∧
            j < accumulators_width documents * (d >>> accumulators_shift documents) +
              accumulators_width documents
          then 0 else s.acc j := by
      intro j
      unfold lazyClear
      rw [if_pos hflag]
    have hnone : ∀ p ∈ g, p.1 >>> accumulators_shift documents ≠
        d >>> accumulators_shift documents := by
      intro p hp hcontra
      have := (hA1 _ htH).mpr ⟨p, hp, hcontra⟩
      rw [this] at hflag
      exact absurd hflag (by simp)
    have hdz : totals g d = 0 := by
      apply totals_eq_zero
      intro p hp hpj
      exact hnone p hp (by rw [hpj])
    constructor
    · rw [haccEq d, if_pos hdint, hdz]
    · intro dd hdd hpos
      have hddH : dd >>> accumulators_shift documents < accumulators_height documents :=
        strip_lt_height hdd
      obtain ⟨p, hp, hpd⟩ := exists_of_totals_pos hpos
      have hddflag : s.clean (dd >>> accumulators_shift documents) = true :=
        (hA1 _ hddH).mpr ⟨p, hp, by rw [hpd]⟩
      have hdds : dd >>> accumulators_shift documents ≠
          d >>> accumulators_shift documents := by
        intro hcontra
        rw [hcontra, hflag] at hddflag
        exact absurd hddflag (by simp)
      have hddint : ¬ (accumulators_width documents *
          (d >>> accumulators_shift documents) ≤ dd ∧
          dd < accumulators_width documents * (d >>> accumulators_shift documents) +
            accumulators_width documents) := by
        intro hcontra
        exact hdds (strip_interval_width.mpr hcontra)
      rw [haccEq dd, if_neg hddint, hA2 dd hddH hddflag,
        Nat.mod_eq_of_lt (hover dd hdd)]
  · have hclear : lazyClear documents s d = s := by
      unfold lazyClear
      rw [if_neg hflag]
    have hflag2 : s.clean (d >>> accumulators_shift documents) = true := by
      revert hflag
      cases s.clean (d >>> accumulators_shift documents) <;> simp
    rw [hclear]
    constructor
    · rw [hA2 d htH hflag2, Nat.mod_eq_of_lt (hover d hd)]
    · intro dd hdd hpos
      have hddH : dd >>> accumulators_shift documents < accumulators_height documents :=
        strip_lt_height hdd
      obtain ⟨p, hp, hpd⟩ := exists_of_totals_pos hpos
      have hddflag : s.clean (dd >>> accumulators_shift documents) = true :=
        (hA1 _ hddH).mpr ⟨p, hp, by rw [hpd]⟩
      rw [hA2 dd hddH hddflag, Nat.mod_eq_of_lt (hover dd hdd)]

/-- A positive-total cell of a state satisfying the accumulator invariant
holds exactly its total. -/
theorem acc_eq_totals_of_pos (documents : Nat) (g : List (Nat × Nat)) (s : QState)
    (hAcc : AccInv documents g s)
    (hover : ∀ j, j < documents → totals g j < accumulatorMod)
    (dd : Nat) (hdd : dd < documents) (hpos : 0 < totals g dd) :
    s.acc dd = totals g dd := by
  obtain ⟨hA1, hA2⟩ := hAcc
  have hddH : dd >>> accumulators_shift documents < accumulators_height documents :=
    strip_lt_height hdd
  obtain ⟨p, hp, hpd⟩ := exists_of_totals_pos hpos
  have hddflag : s.clean (dd >>> accumulators_shift documents) = true :=
    (hA1 _ hddH).mpr ⟨p, hp, by rw [hpd]⟩
  rw [hA2 dd hddH hddflag, Nat.mod_eq_of_lt (hover dd hdd)]

/-! ## Small list-order helpers for the pointer invariant -/

theorem headD_mem {l : List Nat} (h : l ≠ []) : l.headD 0 ∈ l := by
  cases l with
  | nil => exact absurd rfl h
  | cons a t => exact List.mem_cons_self a t

theorem headD_eq_getD (l : List Nat) : l.headD 0 = l.getD 0 0 := by
  cases l <;> rfl

/-- In a min-heap, the root entry is `⪯` every member. -/
theorem rootmin_members {acc : Nat → Nat} {l : List Nat} (h : IsHeap acc l) :
    ∀ m ∈ l, ¬ keyLt acc m (l.headD 0) := by
  intro m hm
  obtain ⟨j, hj, hval⟩ := List.getElem_of_mem hm
  have := isHeap_root_min h j hj
  rw [List.getD_eq_getElem _ _ hj, hval, ← headD_eq_getD] at this
  exact this

/-- Raising only the right-hand cell's value preserves `≺`. -/
theorem keyLt_raise_right {acc acc2 : Nat → Nat} {a b : Nat}
    (ha : acc2 a = acc a) (hb : acc b ≤ acc2 b) (h : keyLt acc a b) :
    keyLt acc2 a b := by
  unfold keyLt at h ⊢
  omega

theorem add_rsv_acc_bumped (documents top_k : Nat) (s : QState) (d sc : Nat) :
    (add_rsv documents top_k s d sc).acc = bumped documents s d sc :=
  add_rsv_acc documents top_k s d sc

/-- The pointer-array transition of `add_rsv`, branch by branch. -/
theorem add_rsv_ptrs (documents top_k : Nat) (s : QState) (d sc : Nat) :
    (add_rsv documents top_k s d sc).ptrs =
      if s.ptrs.length < top_k then
        (if (if (lazyClear documents s d).acc d = 0 then s.ptrs ++ [d] else s.ptrs).length
              = top_k
          then make_heap (bumped documents s d sc)
            (if (lazyClear documents s d).acc d = 0 then s.ptrs ++ [d] else s.ptrs)
          else (if (lazyClear documents s d).acc d = 0 then s.ptrs ++ [d] else s.ptrs))
      else if 0 ≤ add_rsv_compare (lazyClear documents s d).acc d (s.ptrs.headD 0)
        then promote (bumped documents s d sc) s.ptrs d
      else if 0 < add_rsv_compare (bumped documents s d sc) d (s.ptrs.headD 0)
        then push_back (bumped documents s d sc) s.ptrs d
      else s.ptrs := by
  unfold add_rsv bumped
  dsimp only
  rw [lazyClear_ptrs]
  split_ifs <;> rfl

theorem pInv_rewind (documents top_k : Nat) (s : QState) :
    PInv documents top_k [] (rewind documents s) := by
  constructor
  · exact List.nodup_nil
  · intro d hd
    exact absurd hd (by simp [rewind])
  · intro d hd
    exact absurd hd (by simp [rewind])
  · simp [rewind]
  · intro _ d _ hpos
    rw [totals_nil] at hpos
    exact absurd hpos (by omega)
  · intro _
    intro p c hc hcl hp0
    simp [rewind] at hcl
  · intro _ d _ hpos
    rw [totals_nil] at hpos
    exact absurd hpos (by omega)

theorem pInv_add (documents top_k : Nat) (g : List (Nat × Nat)) (s : QState)
    (d sc : Nat) (htk : 1 ≤ top_k) (hd : d < documents) (hsc : 0 < sc)
    (hover : ∀ j, j < documents → totals (g ++ [(d, sc)]) j < accumulatorMod)
    (hAcc : AccInv documents g s) (hP : PInv documents top_k g s) :
    PInv documents top_k (g ++ [(d, sc)]) (add_rsv documents top_k s d sc) := by
  have hoverg : ∀ j, j < documents → totals g j < accumulatorMod := by
    intro j hj
    exact lt_of_le_of_lt (totals_le_append g [(d, sc)] j) (hover j hj)
  have htot : ∀ j, totals (g ++ [(d, sc)]) j = totals g j + if j = d then sc else 0 :=
    totals_snoc g d sc
  have htotne : ∀ j, j ≠ d → totals (g ++ [(d, sc)]) j = totals g j := by
    intro j hj
    rw [htot j, if_neg hj, Nat.add_zero]
  have htotd : totals (g ++ [(d, sc)]) d = totals g d + sc := by
    rw [htot d, if_pos rfl]
  obtain ⟨hacc1d, hacc1pos⟩ := lazyClear_props documents g s d hd hAcc hoverg
  -- the bumped value function on the relevant cells
  have hb_d : bumped documents s d sc d = totals (g ++ [(d, sc)]) d := by
    unfold bumped
    rw [if_pos rfl, hacc1d, ← htotd, Nat.mod_eq_of_lt (hover d hd)]
  have hb_ne : ∀ y, y ≠ d → bumped documents s d sc y = (lazyClear documents s d).acc y := by
    intro y hy
    unfold bumped
    rw [if_neg hy]
  have hb_pos : ∀ dd, dd < documents → 0 < totals g dd → dd ≠ d →
      bumped documents s d sc dd = totals g dd := by
    intro dd h1 h2 h3
    rw [hb_ne dd h3]
    exact hacc1pos dd h1 h2
  -- member values under the three relevant value functions
  have hsacc_mem : ∀ m ∈ s.ptrs, s.acc m = totals g m := by
    intro m hm
    exact acc_eq_totals_of_pos documents g s hAcc hoverg m (hP.mem_lt m hm) (hP.mem_pos m hm)
  have hacc1_mem : ∀ m ∈ s.ptrs, (lazyClear documents s d).acc m = totals g m := by
    intro m hm
    exact hacc1pos m (hP.mem_lt m hm) (hP.mem_pos m hm)
  have hmempos2 : ∀ m ∈ s.ptrs, 0 < totals (g ++ [(d, sc)]) m := by
    intro m hm
    have := hP.mem_pos m hm
    rw [htot m]
    omega
  by_cases hlt : s.ptrs.length < top_k
  · -- below capacity: possibly append, heapify when reaching capacity
    by_cases hold : (lazyClear documents s d).acc d = 0
    · -- first touch of d since the rewind
      have htgd0 : totals g d = 0 := by rw [← hacc1d]; exact hold
      have hdnotin : d ∉ s.ptrs := by
        intro hmem
        have := hP.mem_pos d hmem
        rw [htgd0] at this
        exact absurd this (by omega)
      have hnodup2 : (s.ptrs ++ [d]).Nodup := by
        rw [List.nodup_append]
        refine ⟨hP.nodup, List.nodup_singleton d, ?_⟩
        intro x hx hxd
        rw [List.mem_singleton.mp hxd] at hx
        exact hdnotin hx
      have hmemlt2 : ∀ m ∈ s.ptrs ++ [d], m < documents := by
        intro m hm
        rcases List.mem_append.mp hm with hm | hm
        · exact hP.mem_lt m hm
        · rw [List.mem_singleton.mp hm]; exact hd
      have hmempos3 : ∀ m ∈ s.ptrs ++ [d], 0 < totals (g ++ [(d, sc)]) m := by
        intro m hm
        rcases List.mem_append.mp hm with hm | hm
        · exact hmempos2 m hm
        · rw [List.mem_singleton.mp hm, htotd]; omega
      have hposmem2 : ∀ dd, dd < documents → 0 < totals (g ++ [(d, sc)]) dd →
          dd ∈ s.ptrs ++ [d] := by
        intro dd h1 h2
        by_cases hdd : dd = d
        · rw [hdd]; exact List.mem_append.mpr (Or.inr (List.mem_singleton_self d))
        · have : 0 < totals g dd := by rwa [htotne dd hdd] at h2
          exact List.mem_append.mpr (Or.inl (hP.notFull hlt dd h1 this))
      have hptrs0 : (add_rsv documents top_k s d sc).ptrs =
          if (s.ptrs ++ [d]).length = top_k
            then make_heap (bumped documents s d sc) (s.ptrs ++ [d])
            else s.ptrs ++ [d] := by
        rw [add_rsv_ptrs, if_pos hlt]
        simp only [if_pos hold]
      by_cases hfull : (s.ptrs ++ [d]).length = top_k
      · -- capacity reached: heapify
        rw [if_pos hfull] at hptrs0
        obtain ⟨mhperm, mhheap⟩ := make_heap_spec (bumped documents s d sc) (s.ptrs ++ [d])
        have hfmem : ∀ x, x ∈ (add_rsv documents top_k s d sc).ptrs ↔
            x ∈ s.ptrs ++ [d] := by
          intro x
          rw [hptrs0]
          exact mhperm.mem_iff
        have hflen : (add_rsv documents top_k s d sc).ptrs.length = top_k := by
          rw [hptrs0, mhperm.length_eq, hfull]
        refine ⟨?_, ?_, ?_, ?_, ?_, ?_, ?_⟩
        · rw [hptrs0]
          exact (mhperm.nodup_iff).mpr hnodup2
        · intro m hm
          exact hmemlt2 m ((hfmem m).mp hm)
        · intro m hm
          exact hmempos3 m ((hfmem m).mp hm)
        · rw [hflen]
        · intro hcontra
          rw [hflen] at hcontra
          exact absurd hcontra (by omega)
        · intro _
          rw [add_rsv_acc_bumped, hptrs0]
          exact mhheap
        · intro _ dd h1 h2 h3
          exact absurd ((hfmem dd).mpr (hposmem2 dd h1 h2)) h3
      · -- still below capacity after the append
        rw [if_neg hfull] at hptrs0
        have hflen : (add_rsv documents top_k s d sc).ptrs.length = s.ptrs.length + 1 := by
          rw [hptrs0, List.length_append, List.length_singleton]
        refine ⟨?_, ?_, ?_, ?_, ?_, ?_, ?_⟩
        · rw [hptrs0]; exact hnodup2
        · intro m hm
          rw [hptrs0] at hm
          exact hmemlt2 m hm
        · intro m hm
          rw [hptrs0] at hm
          exact hmempos3 m hm
        · rw [hflen]; omega
        · intro _ dd h1 h2
          rw [hptrs0]
          exact hposmem2 dd h1 h2
        · intro hcontra
          rw [hptrs0] at hcontra
          exact absurd hcontra hfull
        · intro hcontra
          rw [hflen] at hcontra
          exfalso
          rw [List.length_append, List.length_singleton] at hfull
          exact hfull hcontra
    · -- d already tracked (below capacity, every positive document is tracked)
      have htgdpos : 0 < totals g d := by
        rw [← hacc1d]
        omega
      have hdin : d ∈ s.ptrs := hP.notFull hlt d hd htgdpos
      have hptrs0 : (add_rsv documents top_k s d sc).ptrs = s.ptrs := by
        rw [add_rsv_ptrs, if_pos hlt]
        simp only [if_neg hold]
        rw [if_neg (Nat.ne_of_lt hlt)]
      refine ⟨?_, ?_, ?_, ?_, ?_, ?_, ?_⟩
      · rw [hptrs0]; exact hP.nodup
      · intro m hm
        rw [hptrs0] at hm
        exact hP.mem_lt m hm
      · intro m hm
        rw [hptrs0] at hm
        exact hmempos2 m hm
      · rw [hptrs0]; exact hP.len_le
      · intro _ dd h1 h2
        rw [hptrs0]
        by_cases hdd : dd = d
        · rw [hdd]; exact hdin
        · have : 0 < totals g dd := by rwa [htotne dd hdd] at h2
          exact hP.notFull hlt dd h1 this
      · intro hcontra
        rw [hptrs0] at hcontra
        omega
      · intro hcontra
        rw [hptrs0] at hcontra
        omega
  · -- at capacity: promote, replace-min, or discard
    have hL : s.ptrs.length = top_k := Nat.le_antisymm hP.len_le (Nat.le_of_not_lt hlt)
    have hne : s.ptrs ≠ [] := by
      intro hnil
      rw [hnil] at hL
      simp at hL
      omega
    have hroot_mem : s.ptrs.headD 0 ∈ s.ptrs := headD_mem hne
    have hrootpos : 0 < totals g (s.ptrs.headD 0) := hP.mem_pos _ hroot_mem
    have hacc1root : (lazyClear documents s d).acc (s.ptrs.headD 0) =
        totals g (s.ptrs.headD 0) := hacc1_mem _ hroot_mem
    have hheap1 : IsHeap (lazyClear documents s d).acc s.ptrs :=
      isHeap_congr (fun y hy => by rw [hacc1_mem y hy, hsacc_mem y hy]) (hP.heap hL)
    have hrootmin1 : ∀ m ∈ s.ptrs,
        ¬ keyLt (lazyClear documents s d).acc m (s.ptrs.headD 0) :=
      rootmin_members hheap1
    by_cases hcmp : 0 ≤ add_rsv_compare (lazyClear documents s d).acc d (s.ptrs.headD 0)
    · -- classified in-heap: update and promote
      have hnotlt : ¬ keyLt (lazyClear documents s d).acc d (s.ptrs.headD 0) :=
        (add_rsv_compare_nonneg_iff _ _ _).mp hcmp
      have hdin : d ∈ s.ptrs := by
        by_contra hdnot
        apply hnotlt
        rcases Nat.eq_zero_or_pos (totals g d) with hz | hpos
        · exact Or.inl (by rw [hacc1d, hz, hacc1root]; exact hrootpos)
        · have hbelow := hP.below_root hL d hd hpos hdnot
          have e1 : (lazyClear documents s d).acc d = s.acc d := by
            rw [hacc1d, acc_eq_totals_of_pos documents g s hAcc hoverg d hd hpos]
          have e2 : (lazyClear documents s d).acc (s.ptrs.headD 0) =
              s.acc (s.ptrs.headD 0) := by
            rw [hacc1root, hsacc_mem _ hroot_mem]
          exact (keyLt_congr e1 e2).mpr hbelow
      have hmono : (lazyClear documents s d).acc d ≤ bumped documents s d sc d := by
        rw [hacc1d, hb_d, htotd]
        omega
      obtain ⟨pperm, pheap⟩ := promote_spec ((lazyClear documents s d).acc)
        (bumped documents s d sc) s.ptrs d hdin hP.nodup hheap1 hb_ne hmono
      have hptrs0 : (add_rsv documents top_k s d sc).ptrs =
          promote (bumped documents s d sc) s.ptrs d := by
        rw [add_rsv_ptrs, if_neg hlt, if_pos hcmp]
      have hfmem : ∀ x, x ∈ (add_rsv documents top_k s d sc).ptrs ↔ x ∈ s.ptrs := by
        intro x
        rw [hptrs0]
        exact pperm.mem_iff
      have hflen : (add_rsv documents top_k s d sc).ptrs.length = top_k := by
        rw [hptrs0, pperm.length_eq, hL]
      refine ⟨?_, ?_, ?_, ?_, ?_, ?_, ?_⟩
      · rw [hptrs0]
        exact (pperm.nodup_iff).mpr hP.nodup
      · intro m hm
        exact hP.mem_lt m ((hfmem m).mp hm)
      · intro m hm
        exact hmempos2 m ((hfmem m).mp hm)
      · rw [hflen]
      · intro hcontra
        rw [hflen] at hcontra
        omega
      · intro _
        rw [add_rsv_acc_bumped, hptrs0]
        exact pheap
      · intro _ dd h1 h2 h3
        rw [add_rsv_acc_bumped]
        have h3p : dd ∉ s.ptrs := fun hmem => h3 ((hfmem dd).mpr hmem)
        have hddne : dd ≠ d := fun he => h3p (he ▸ hdin)
        have hddpos : 0 < totals g dd := by rwa [htotne dd hddne] at h2
        have holdb : keyLt s.acc dd (s.ptrs.headD 0) := hP.below_root hL dd h1 hddpos h3p
        have hstepA : keyLt (lazyClear documents s d).acc dd (s.ptrs.headD 0) := by
          have e1 : (lazyClear documents s d).acc dd = s.acc dd := by
            rw [hacc1pos dd h1 hddpos,
              acc_eq_totals_of_pos documents g s hAcc hoverg dd h1 hddpos]
          have e2 : (lazyClear documents s d).acc (s.ptrs.headD 0) =
              s.acc (s.ptrs.headD 0) := by
            rw [hacc1root, hsacc_mem _ hroot_mem]
          exact (keyLt_congr e1 e2).mpr holdb
        have hrne : (add_rsv documents top_k s d sc).ptrs ≠ [] := by
          intro hnil
          rw [hnil] at hflen
          simp at hflen
          omega
        have hrmem : (add_rsv documents top_k s d sc).ptrs.headD 0 ∈ s.ptrs :=
          (hfmem _).mp (headD_mem hrne)
        rw [hptrs0] at hrmem ⊢
        have hstepC : keyLt (lazyClear documents s d).acc dd
            ((promote (bumped documents s d sc) s.ptrs d).headD 0) := by
          rcases not_keyLt_iff.mp (hrootmin1 _ hrmem) with h | h
          · exact keyLt_trans hstepA h
          · rw [h]
            exact hstepA
        by_cases hrd : (promote (bumped documents s d sc) s.ptrs d).headD 0 = d
        · refine keyLt_raise_right (hb_ne dd hddne) ?_ hstepC
          rw [hrd, hacc1d, hb_d, htotd]
          omega
        · exact (keyLt_congr (hb_ne dd hddne) (hb_ne _ hrd)).mpr hstepC
    · -- classified out of the heap
      have hklt : keyLt (lazyClear documents s d).acc d (s.ptrs.headD 0) := by
        by_contra h
        exact hcmp ((add_rsv_compare_nonneg_iff _ _ _).mpr h)
      have hdnot : d ∉ s.ptrs := fun hmem => (hrootmin1 d hmem) hklt
      have hb_mem : ∀ y ∈ s.ptrs, bumped documents s d sc y =
          (lazyClear documents s d).acc y :=
        fun y hy => hb_ne y (fun he => hdnot (he ▸ hy))
      have hheap2 : IsHeap (bumped documents s d sc) s.ptrs :=
        isHeap_congr hb_mem hheap1
      by_cases hcmp2 : 0 < add_rsv_compare (bumped documents s d sc) d (s.ptrs.headD 0)
      · -- the updated cell overtakes the root: replace-min
        have hkgt : keyLt (bumped documents s d sc) (s.ptrs.headD 0) d :=
          (add_rsv_compare_pos_iff _ _ _).mp hcmp2
        obtain ⟨pbperm, pbheap⟩ := push_back_spec (bumped documents s d sc) s.ptrs d hheap2
        have hptrs0 : (add_rsv documents top_k s d sc).ptrs =
            push_back (bumped documents s d sc) s.ptrs d := by
          rw [add_rsv_ptrs, if_neg hlt, if_neg hcmp, if_pos hcmp2]
        obtain ⟨root0, tail, hcons⟩ : ∃ a t, s.ptrs = a :: t := by
          cases hc : s.ptrs with
          | nil => exact absurd hc hne
          | cons a t => exact ⟨a, t, rfl⟩
        have hroot0 : s.ptrs.headD 0 = root0 := by rw [hcons]; rfl
        have hset : s.ptrs.set 0 d = d :: tail := by rw [hcons]; rfl
        have hperm2 : (push_back (bumped documents s d sc) s.ptrs d).Perm (d :: tail) := by
          rw [← hset]
          exact pbperm
        have htailsub : ∀ x ∈ tail, x ∈ s.ptrs := by
          intro x hx
          rw [hcons]
          exact List.mem_cons_of_mem root0 hx
        have hmem3 : ∀ x, x ∈ push_back (bumped documents s d sc) s.ptrs d ↔
            x = d ∨ x ∈ tail := by
          intro x
          rw [hperm2.mem_iff, List.mem_cons]
        have htnodup : (d :: tail).Nodup := by
          have := hP.nodup
          rw [hcons, List.nodup_cons] at this
          rw [List.nodup_cons]
          exact ⟨fun hx => hdnot (htailsub d hx), this.2⟩
        have hrootnotail : root0 ∉ tail := by
          have := hP.nodup
          rw [hcons, List.nodup_cons] at this
          exact this.1
        have hflen : (add_rsv documents top_k s d sc).ptrs.length = top_k := by
          rw [hptrs0, pbperm.length_eq, List.length_set, hL]
        -- the evicted root is strictly below every remaining member
        have hrootbelow : ∀ m, (m = d ∨ m ∈ tail) →
            keyLt (bumped documents s d sc) root0 m := by
          intro m hm
          rcases hm with rfl | hm
          · rw [← hroot0]
            exact hkgt
          · have hmmem : m ∈ s.ptrs := htailsub m hm
            have hmne : m ≠ root0 := fun he => hrootnotail (he ▸ hm)
            have : ¬ keyLt (bumped documents s d sc) m root0 := by
              rw [← hroot0]
              rw [keyLt_congr (hb_mem m hmmem) (hb_mem _ hroot_mem)]
              exact hrootmin1 m hmmem
            rcases not_keyLt_iff.mp this with h | h
            · exact h
            · exact absurd h hmne
        refine ⟨?_, ?_, ?_, ?_, ?_, ?_, ?_⟩
        · rw [hptrs0]
          exact (hperm2.nodup_iff).mpr htnodup
        · intro m hm
          rw [hptrs0] at hm
          rcases (hmem3 m).mp hm with rfl | hm
          · exact hd
          · exact hP.mem_lt m (htailsub m hm)
        · intro m hm
          rw [hptrs0] at hm
          rcases (hmem3 m).mp hm with rfl | hm
          · rw [htotd]; omega
          · exact hmempos2 m (htailsub m hm)
        · rw [hflen]
        · intro hcontra
          rw [hflen] at hcontra
          omega
        · intro _
          rw [add_rsv_acc_bumped, hptrs0]
          exact pbheap
        · intro _ dd h1 h2 h3
          rw [add_rsv_acc_bumped, hptrs0]
          rw [hptrs0] at h3
          have hddne : dd ≠ d := fun he => h3 (by rw [he, hmem3]; exact Or.inl rfl)
          have hddtail : dd ∉ tail := fun hx => h3 ((hmem3 dd).mpr (Or.inr hx))
          have hpbne : push_back (bumped documents s d sc) s.ptrs d ≠ [] := by
            intro hnil
            rw [hptrs0, hnil] at hflen
            simp at hflen
            omega
          have hrin : (push_back (bumped documents s d sc) s.ptrs d).headD 0 = d ∨
              (push_back (bumped documents s d sc) s.ptrs d).headD 0 ∈ tail :=
            (hmem3 _).mp (headD_mem hpbne)
          have hrootstep : keyLt (bumped documents s d sc) root0
              ((push_back (bumped documents s d sc) s.ptrs d).headD 0) :=
            hrootbelow _ hrin
          by_cases hddroot : dd = root0
          · rw [hddroot]
            exact hrootstep
          · have hddnotin : dd ∉ s.ptrs := by
              rw [hcons]
              intro hx
              rcases List.mem_cons.mp hx with he | hx
              · exact hddroot he
              · exact hddtail hx
            have hddpos : 0 < totals g dd := by rwa [htotne dd hddne] at h2
            have holdb : keyLt s.acc dd (s.ptrs.headD 0) :=
              hP.below_root hL dd h1 hddpos hddnotin
            have hstepA : keyLt (bumped documents s d sc) dd root0 := by
              have e1 : bumped documents s d sc dd = s.acc dd := by
                rw [hb_ne dd hddne, hacc1pos dd h1 hddpos,
                  acc_eq_totals_of_pos documents g s hAcc hoverg dd h1 hddpos]
              have e2 : bumped documents s d sc root0 = s.acc root0 := by
                have hr0 : root0 ∈ s.ptrs := by
                  rw [hcons]
                  exact List.mem_cons_self _ _
                rw [hb_mem root0 hr0, hacc1_mem root0 hr0, hsacc_mem root0 hr0]
              refine (keyLt_congr e1 e2).mpr ?_
              rw [← hroot0]
              exact holdb
            exact keyLt_trans hstepA hrootstep
      · -- the updated cell still loses to the root: discard
        have hptrs0 : (add_rsv documents top_k s d sc).ptrs = s.ptrs := by
          rw [add_rsv_ptrs, if_neg hlt, if_neg hcmp, if_neg hcmp2]
        have hnotgt : ¬ keyLt (bumped documents s d sc) (s.ptrs.headD 0) d :=
          fun h => hcmp2 ((add_rsv_compare_pos_iff _ _ _).mpr h)
        refine ⟨?_, ?_, ?_, ?_, ?_, ?_, ?_⟩
        · rw [hptrs0]; exact hP.nodup
        · intro m hm
          rw [hptrs0] at hm
          exact hP.mem_lt m hm
        · intro m hm
          rw [hptrs0] at hm
          exact hmempos2 m hm
        · rw [hptrs0]; exact hP.len_le
        · intro hcontra
          rw [hptrs0] at hcontra
          omega
        · intro _
          rw [add_rsv_acc_bumped, hptrs0]
          exact hheap2
        · intro _ dd h1 h2 h3
          rw [add_rsv_acc_bumped, hptrs0]
          rw [hptrs0] at h3
          by_cases hddd : dd = d
          · rw [hddd]
            rcases not_keyLt_iff.mp hnotgt with h | h
            · exact h
            · exact absurd (h ▸ hroot_mem) (hddd ▸ h3)
          · have hddpos : 0 < totals g dd := by rwa [htotne dd hddd] at h2
            have holdb : keyLt s.acc dd (s.ptrs.headD 0) :=
              hP.below_root hL dd h1 hddpos h3
            have e1 : bumped documents s d sc dd = s.acc dd := by
              rw [hb_ne dd hddd, hacc1pos dd h1 hddpos,
                acc_eq_totals_of_pos documents g s hAcc hoverg dd h1 hddpos]
            have e2 : bumped documents s d sc (s.ptrs.headD 0) = s.acc (s.ptrs.headD 0) := by
              rw [hb_mem _ hroot_mem, hsacc_mem _ hroot_mem]
              exact hacc1root
            exact (keyLt_congr e1 e2).mpr holdb

/-! ## The invariants along a full run -/

theorem inv_runAux (documents top_k : Nat) :
    ∀ (h g : List (Nat × Nat)) (s : QState), 1 ≤ top_k →
      (∀ p ∈ g ++ h, p.1 < documents ∧ 0 < p.2) →
      (∀ j, j < documents → totals (g ++ h) j < accumulatorMod) →
      AccInv documents g s → PInv documents top_k g s →
      AccInv documents (g ++ h) (runAdds documents top_k s h) ∧
      PInv documents top_k (g ++ h) (runAdds documents top_k s h) := by
  intro h
  induction h with
  | nil =>
    intro g s _ _ _ hAcc hP
    simpa [runAdds] using ⟨hAcc, hP⟩
  | cons x t ih =>
    intro g s htk hval hover hAcc hP
    obtain ⟨xd, xs⟩ := x
    have hxmem : (xd, xs) ∈ g ++ (xd, xs) :: t := by simp
    have hxd : xd < documents := (hval (xd, xs) hxmem).1
    have hxs : 0 < xs := (hval (xd, xs) hxmem).2
    have hover1 : ∀ j, j < documents → totals (g ++ [(xd, xs)]) j < accumulatorMod := by
      intro j hj
      refine lt_of_le_of_lt ?_ (hover j hj)
      have : g ++ (xd, xs) :: t = (g ++ [(xd, xs)]) ++ t := by simp
      rw [this]
      exact totals_le_append _ _ _
    have hAcc2 := accInv_add documents top_k g s xd xs hxd hAcc
    have hP2 := pInv_add documents top_k g s xd xs htk hxd hxs hover1 hAcc hP
    have hrw : runAdds documents top_k s ((xd, xs) :: t) =
        runAdds documents top_k (add_rsv documents top_k s xd xs) t := rfl
    have hassoc : (g ++ [(xd, xs)]) ++ t = g ++ (xd, xs) :: t := by simp
    have := ih (g ++ [(xd, xs)]) (add_rsv documents top_k s xd xs) htk
      (by rw [hassoc]; exact hval) (by rw [hassoc]; exact hover) hAcc2 hP2
    rw [hassoc] at this
    rw [hrw]
    exact this

/-- The master run theorem: after `rewind` and any in-range, positive-score,
non-overflowing run, both invariants hold with the run as the history. -/
theorem inv_run (documents top_k : Nat) (s0 : QState) (h : List (Nat × Nat))
    (htk : 1 ≤ top_k) (hval : ∀ p ∈ h, p.1 < documents ∧ 0 < p.2)
    (hover : ∀ j, j < documents → totals h j < accumulatorMod) :
    AccInv documents h (runAdds documents top_k (rewind documents s0) h) ∧
    PInv documents top_k h (runAdds documents top_k (rewind documents s0) h) := by
  have := inv_runAux documents top_k h [] (rewind documents s0) htk
    (by simpa using hval) (by simpa using hover)
    (accInv_rewind documents s0) (pInv_rewind documents top_k s0)
  simpa using this

/-! ## The iterator output equals the brute-force top-k -/

theorem output_eq_brute (primary_keys : List String) (documents top_k : Nat)
    (s0 : QState) (h : List (Nat × Nat)) (htk : 1 ≤ top_k)
    (hval : ∀ p ∈ h, p.1 < documents ∧ 0 < p.2)
    (hover : ∀ j, j < documents → totals h j < accumulatorMod) :
    queryOutput primary_keys (runAdds documents top_k (rewind documents s0) h) =
      (bruteList documents top_k (totals h)).map
        (fun dd => (dd, primary_keys.getD dd "", totals h dd)) := by
  obtain ⟨hAcc, hP⟩ := inv_run documents top_k s0 h htk hval hover
  set s := runAdds documents top_k (rewind documents s0) h with hsdef
  -- value of every tracked or positive cell
  have haccpos : ∀ dd, dd < documents → 0 < totals h dd → s.acc dd = totals h dd :=
    acc_eq_totals_of_pos documents h s hAcc hover
  have haccmem : ∀ m ∈ s.ptrs, s.acc m = totals h m :=
    fun m hm => haccpos m (hP.mem_lt m hm) (hP.mem_pos m hm)
  have hposnodup : (positiveDocs documents (totals h)).Nodup :=
    List.Nodup.filter _ (List.nodup_range documents)
  have hposmem : ∀ x, x ∈ positiveDocs documents (totals h) ↔
      x < documents ∧ 0 < totals h x := by
    intro x
    unfold positiveDocs
    rw [List.mem_filter, List.mem_range]
    simp
  have hsubpos : ∀ m ∈ s.ptrs, m ∈ positiveDocs documents (totals h) := by
    intro m hm
    rw [hposmem m]
    exact ⟨hP.mem_lt m hm, hP.mem_pos m hm⟩
  -- the sorted tracked list
  have hsortperm : (sortDesc s.acc s.ptrs).Perm s.ptrs := sortDesc_perm s.acc s.ptrs
  have hsortnodup : (sortDesc s.acc s.ptrs).Nodup := (hsortperm.nodup_iff).mpr hP.nodup
  have hsortmem : ∀ x, x ∈ sortDesc s.acc s.ptrs ↔ x ∈ s.ptrs :=
    fun x => hsortperm.mem_iff
  have hsortpair : (sortDesc s.acc s.ptrs).Pairwise
      fun a b => keyLt s.acc b a :=
    pairwise_strict_of_nodup (sortDesc_sorted s.acc s.ptrs) hsortnodup
  -- transfer the sortedness of the tracked list to totals-keys
  have hsortpairT : (sortDesc s.acc s.ptrs).Pairwise
      fun a b => keyLt (totals h) b a := by
    refine hsortpair.imp_of_mem ?_
    intro a b ha hb hk
    rw [hsortmem] at ha hb
    exact (keyLt_congr (haccmem b hb) (haccmem a ha)).mp hk
  -- the full brute-force descending list
  have hfullperm : (sortDesc (totals h) (positiveDocs documents (totals h))).Perm
      (positiveDocs documents (totals h)) := sortDesc_perm _ _
  have hfullpair : (sortDesc (totals h) (positiveDocs documents (totals h))).Pairwise
      fun a b => keyLt (totals h) b a :=
    pairwise_strict_of_nodup (sortDesc_sorted _ _) ((hfullperm.nodup_iff).mpr hposnodup)
  have hout : queryOutput primary_keys s =
      (sortDesc s.acc s.ptrs).map fun dd => (dd, primary_keys.getD dd "", s.acc dd) := rfl
  by_cases hlt : s.ptrs.length < top_k
  · -- below capacity: the tracked set is exactly the positive set
    have hmemiff : ∀ x, x ∈ s.ptrs ↔ x ∈ positiveDocs documents (totals h) := by
      intro x
      constructor
      · exact hsubpos x
      · intro hx
        rw [hposmem x] at hx
        exact hP.notFull hlt x hx.1 hx.2
    have hperm : s.ptrs.Perm (positiveDocs documents (totals h)) :=
      (List.perm_ext_iff_of_nodup hP.nodup hposnodup).mpr hmemiff
    have heq : sortDesc s.acc s.ptrs =
        sortDesc (totals h) (positiveDocs documents (totals h)) :=
      sorted_perm_unique hsortpairT hfullpair
        (hsortperm.trans (hperm.trans hfullperm.symm))
    have hlen : (sortDesc (totals h) (positiveDocs documents (totals h))).length ≤ top_k := by
      rw [hfullperm.length_eq, ← hperm.length_eq]
      omega
    rw [hout, heq]
    unfold bruteList
    rw [List.take_of_length_le hlen]
    apply List.map_congr_left
    intro a ha
    have ha2 : a ∈ s.ptrs := (hmemiff a).mpr (hfullperm.mem_iff.mp ha)
    rw [haccmem a ha2]
  · -- at capacity: the sorted tracked list is the top-k prefix
    have hL : s.ptrs.length = top_k := Nat.le_antisymm hP.len_le (Nat.le_of_not_lt hlt)
    have hne : s.ptrs ≠ [] := by
      intro hnil
      rw [hnil] at hL
      simp at hL
      omega
    have hroot_mem : s.ptrs.headD 0 ∈ s.ptrs := headD_mem hne
    have hrootmin : ∀ m ∈ s.ptrs, ¬ keyLt s.acc m (s.ptrs.headD 0) :=
      rootmin_members (hP.heap hL)
    -- the untracked positive documents
    set rest := (positiveDocs documents (totals h)).filter (fun x => ¬ x ∈ s.ptrs)
      with hrestdef
    have hrestmem : ∀ x, x ∈ rest ↔
        x ∈ positiveDocs documents (totals h) ∧ x ∉ s.ptrs := by
      intro x
      rw [hrestdef, List.mem_filter]
      simp
    have hrestnodup : rest.Nodup := List.Nodup.filter _ hposnodup
    have hrsortperm : (sortDesc (totals h) rest).Perm rest := sortDesc_perm _ _
    have hrsortpair : (sortDesc (totals h) rest).Pairwise
        fun a b => keyLt (totals h) b a :=
      pairwise_strict_of_nodup (sortDesc_sorted _ _) ((hrsortperm.nodup_iff).mpr hrestnodup)
    -- every untracked positive document is strictly below every tracked one
    have hcross : ∀ a ∈ sortDesc s.acc s.ptrs, ∀ b ∈ sortDesc (totals h) rest,
        keyLt (totals h) b a := by
      intro a ha b hb
      rw [hsortmem a] at ha
      rw [hrsortperm.mem_iff, hrestmem b] at hb
      obtain ⟨hbpos, hbnot⟩ := hb
      rw [hposmem b] at hbpos
      have hbelow : keyLt s.acc b (s.ptrs.headD 0) :=
        hP.below_root hL b hbpos.1 hbpos.2 hbnot
      have hchain : keyLt s.acc b a := by
        rcases not_keyLt_iff.mp (hrootmin a ha) with hk | hk
        · exact keyLt_trans hbelow hk
        · rwa [← hk] at hbelow
      exact (keyLt_congr (haccpos b hbpos.1 hbpos.2) (haccmem a ha)).mp hchain
    -- the split of the full descending list
    have hsplitperm : (sortDesc s.acc s.ptrs ++ sortDesc (totals h) rest).Perm
        (positiveDocs documents (totals h)) := by
      have h1 : ((positiveDocs documents (totals h)).filter
          (fun x => x ∈ s.ptrs)).Perm s.ptrs := by
        apply (List.perm_ext_iff_of_nodup (List.Nodup.filter _ hposnodup) hP.nodup).mpr
        intro x
        rw [List.mem_filter]
        simp only [decide_eq_true_eq]
        constructor
        · exact And.right
        · intro hx
          exact ⟨hsubpos x hx, hx⟩
      have hrest2 : rest = (positiveDocs documents (totals h)).filter
          (fun a => !(decide (a ∈ s.ptrs))) := by
        rw [hrestdef]
        simp only [decide_not]
      have c1 : (sortDesc s.acc s.ptrs ++ sortDesc (totals h) rest).Perm
          (s.ptrs ++ rest) := hsortperm.append hrsortperm
      have c2 : (s.ptrs ++ rest).Perm
          ((positiveDocs documents (totals h)).filter (fun x => x ∈ s.ptrs) ++ rest) :=
        (h1.symm).append (List.Perm.refl rest)
      have c3 : ((positiveDocs documents (totals h)).filter (fun x => x ∈ s.ptrs) ++
          rest).Perm (positiveDocs documents (totals h)) := by
        rw [hrest2]
        exact List.filter_append_perm _ _
      exact (c1.trans c2).trans c3
    have hsplitpair : (sortDesc s.acc s.ptrs ++ sortDesc (totals h) rest).Pairwise
        fun a b => keyLt (totals h) b a := by
      rw [List.pairwise_append]
      exact ⟨hsortpairT, hrsortpair, fun a ha b hb => hcross a ha b hb⟩
    have hsplit : sortDesc s.acc s.ptrs ++ sortDesc (totals h) rest =
        sortDesc (totals h) (positiveDocs documents (totals h)) :=
      sorted_perm_unique hsplitpair hfullpair (hsplitperm.trans hfullperm.symm)
    have hslen : (sortDesc s.acc s.ptrs).length = top_k := by
      rw [hsortperm.length_eq, hL]
    rw [hout]
    unfold bruteList
    rw [← hsplit, ← hslen, List.take_left]
    apply List.map_congr_left
    intro a ha
    rw [hsortmem a] at ha
    rw [haccmem a ha]

/-! ## Length bound through arbitrary operation sequences -/

theorem siftDownF_length (acc : Nat → Nat) :
    ∀ (fuel : Nat) (l : List Nat) (i : Nat), (siftDownF acc fuel l i).length = l.length := by
  intro fuel
  induction fuel with
  | zero => intro l i; rfl
  | succ fuel ih =>
    intro l i
    simp only [siftDownF]
    split
    · rfl
    · rw [ih, hSwap_length]

theorem siftDown_length (acc : Nat → Nat) (l : List Nat) (i : Nat) :
    (siftDown acc l i).length = l.length :=
  siftDownF_length acc l.length l i

theorem promote_length (acc : Nat → Nat) (l : List Nat) (x : Nat) :
    (promote acc l x).length = l.length :=
  siftDown_length acc l (l.indexOf x)

theorem push_back_length (acc : Nat → Nat) (l : List Nat) (x : Nat) :
    (push_back acc l x).length = l.length := by
  unfold push_back
  rw [siftDown_length, List.length_set]

/-- A single `add_rsv` call, with any arguments whatsoever, keeps the results
list within `top_k`: the only growth path is the append below capacity, and
the heap operations merely permute (or overwrite in place). -/
theorem add_rsv_len_le (documents top_k : Nat) (s : QState) (d sc : Nat)
    (h : s.ptrs.length ≤ top_k) :
    (add_rsv documents top_k s d sc).ptrs.length ≤ top_k := by
  rw [add_rsv_ptrs]
  by_cases hlt : s.ptrs.length < top_k
  · rw [if_pos hlt]
    by_cases hold : (lazyClear documents s d).acc d = 0
    · simp only [if_pos hold]
      split_ifs with hfull
      · rw [(make_heap_spec _ _).1.length_eq]
        omega
      · rw [List.length_append, List.length_singleton]
        omega
    · simp only [if_neg hold]
      split_ifs with hfull
      · rw [(make_heap_spec _ _).1.length_eq]
        omega
      · omega
  · rw [if_neg hlt]
    split_ifs with h1 h2
    · rw [promote_length]
      exact h
    · rw [push_back_length]
      exact h
    · exact h

theorem runOps_len_le (documents top_k : Nat) :
    ∀ (ops : List QOp) (s : QState), s.ptrs.length ≤ top_k →
      (runOps documents top_k s ops).ptrs.length ≤ top_k := by
  intro ops
  induction ops with
  | nil => intro s hs; exact hs
  | cons op t ih =>
    intro s hs
    cases op with
    | rewindOp =>
      exact ih (rewind documents s) (by simp [rewind])
    | addOp d sc =>
      exact ih (add_rsv documents top_k s d sc) (add_rsv_len_le documents top_k s d sc hs)

/-! ## Rewind postconditions and the lazily observed old value -/

theorem queryOutput_length (primary_keys : List String) (s : QState) :
    (queryOutput primary_keys s).length = s.ptrs.length := by
  unfold queryOutput top_k_qsort
  rw [List.length_map, (sortDesc_perm _ _).length_eq]

/-- The value `add_rsv` would observe in the accumulator cell of a document
with no history since the rewind is zero: either its strip is freshly zeroed
by the lazy-clear prologue, or the flagged strip already holds the (zero)
total. -/
theorem observed_old_zero (documents : Nat) (g : List (Nat × Nat)) (s : QState)
    (d : Nat) (hd : d < documents) (hAcc : AccInv documents g s)
    (hz : totals g d = 0) :
    (lazyClear documents s d).acc d = 0 := by
  obtain ⟨hA1, hA2⟩ := hAcc
  have htH : d >>> accumulators_shift documents < accumulators_height documents :=
    strip_lt_height hd
  by_cases hflag : s.clean (d >>> accumulators_shift documents) = false
  · unfold lazyClear
    rw [if_pos hflag]
    dsimp only
    rw [if_pos (strip_interval_width.mp rfl)]
  · unfold lazyClear
    rw [if_neg hflag]
    have hflag2 : s.clean (d >>> accumulators_shift documents) = true := by
      revert hflag
      cases s.clean (d >>> accumulators_shift documents) <;> simp
    rw [hA2 d htH hflag2, hz]
    rfl

/-! # The specified claims -/

/-- C1 (amended): for every engine with `documents ≥ 1`, `1 ≤ top_k ≤
documents`, and every post-`rewind` run of `add_rsv` calls with valid
document identifiers, positive scores, and every per-document total below
`2^16` (the accumulator cell width), iterating from `begin()` to `end()`
yields exactly the `min(#positive documents, top_k)` documents with the
greatest brute-force totals under `≺`, in descending `≺` order, each as the
triple `(doc_id, primary_keys[doc_id], total)`. -/
theorem claim1_topk_matches_bruteforce (primary_keys : List String)
    (documents top_k : Nat) (s0 : QState) (h : List (Nat × Nat))
    (hdoc : 1 ≤ documents) (htk1 : 1 ≤ top_k) (htk2 : top_k ≤ documents)
    (hval : ∀ p ∈ h, p.1 < documents ∧ 0 < p.2)
    (hover : ∀ j, j < documents → totals h j < 65536) :
    queryOutput primary_keys (runAdds documents top_k (rewind documents s0) h) =
      (bruteList documents top_k (totals h)).map
        (fun dd => (dd, primary_keys.getD dd "", totals h dd)) ∧
    (queryOutput primary_keys (runAdds documents top_k (rewind documents s0) h)).length =
      min ((positiveDocs documents (totals h)).length) top_k := by
  have hover2 : ∀ j, j < documents → totals h j < accumulatorMod := by
    intro j hj
    have := hover j hj
    unfold accumulatorMod
    omega
  have hmain := output_eq_brute primary_keys documents top_k s0 h htk1 hval hover2
  refine ⟨hmain, ?_⟩
  rw [hmain, List.length_map]
  unfold bruteList
  rw [List.length_take, (sortDesc_perm _ _).length_eq, Nat.min_comm]

/-- C1 witness: a concrete four-document engine with `top_k = 2`. -/
theorem claim1_witness :
    queryOutput ["k0", "k1", "k2", "k3"]
        (runAdds 4 2 (rewind 4 zeroState) [(0, 3), (2, 5), (0, 4)]) =
      (bruteList 4 2 (totals [(0, 3), (2, 5), (0, 4)])).map
        (fun dd => (dd, (["k0", "k1", "k2", "k3"] : List String).getD dd "",
          totals [(0, 3), (2, 5), (0, 4)] dd)) ∧
    (queryOutput ["k0", "k1", "k2", "k3"]
        (runAdds 4 2 (rewind 4 zeroState) [(0, 3), (2, 5), (0, 4)])).length =
      min ((positiveDocs 4 (totals [(0, 3), (2, 5), (0, 4)])).length) 2 :=
  claim1_topk_matches_bruteforce ["k0", "k1", "k2", "k3"] 4 2 zeroState
    [(0, 3), (2, 5), (0, 4)] (by decide) (by decide) (by decide) (by decide) (by decide)

/-- C1 counterexample to the unamended claim: two scores of `40000` for the
only document wrap the 16-bit accumulator, so the iterator reports
`80000 % 65536 = 14464` instead of the brute-force total `80000`. -/
theorem claim1_counterexample :
    queryOutput ["k0"] (runAdds 1 1 (rewind 1 zeroState) [(0, 40000), (0, 40000)]) ≠
      (bruteList 1 1 (totals [(0, 40000), (0, 40000)])).map
        (fun dd => (dd, (["k0"] : List String).getD dd "",
          totals [(0, 40000), (0, 40000)] dd)) := by
  decide

/-- C2 (amended): feeding any permutation of a valid, non-overflowing run
after `rewind` yields identical iterator output. -/
theorem claim2_order_independence (primary_keys : List String)
    (documents top_k : Nat) (s0 : QState) (h1 h2 : List (Nat × Nat))
    (htk : 1 ≤ top_k) (hperm : h1.Perm h2)
    (hval : ∀ p ∈ h1, p.1 < documents ∧ 0 < p.2)
    (hover : ∀ j, j < documents → totals h1 j < 65536) :
    queryOutput primary_keys (runAdds documents top_k (rewind documents s0) h1) =
      queryOutput primary_keys (runAdds documents top_k (rewind documents s0) h2) := by
  have hover2 : ∀ j, j < documents → totals h1 j < accumulatorMod := by
    intro j hj
    have := hover j hj
    unfold accumulatorMod
    omega
  have htoteq : totals h2 = totals h1 := funext fun j => (totals_perm hperm j).symm
  have hval2 : ∀ p ∈ h2, p.1 < documents ∧ 0 < p.2 :=
    fun p hp => hval p (hperm.mem_iff.mpr hp)
  have hover3 : ∀ j, j < documents → totals h2 j < accumulatorMod := by
    intro j hj
    rw [htoteq]
    exact hover2 j hj
  rw [output_eq_brute primary_keys documents top_k s0 h1 htk hval hover2,
    output_eq_brute primary_keys documents top_k s0 h2 htk hval2 hover3, htoteq]

/-- C2 witness: two orderings of the same two postings. -/
theorem claim2_witness :
    queryOutput ["k0", "k1"] (runAdds 2 1 (rewind 2 zeroState) [(0, 2), (1, 3)]) =
      queryOutput ["k0", "k1"] (runAdds 2 1 (rewind 2 zeroState) [(1, 3), (0, 2)]) :=
  claim2_order_independence ["k0", "k1"] 2 1 zeroState [(0, 2), (1, 3)] [(1, 3), (0, 2)]
    (by decide) (by decide) (by decide) (by decide)

/-- C2 counterexample to the unamended claim: with 16-bit wrap-around, the
run `(0,1),(1,5),(0,65535)` ends with document 1 tracked, while its
permutation `(0,65535),(0,1),(1,5)` ends with document 0 tracked (its cell
wrapped to 0 and the membership test misfires), so the outputs differ. -/
theorem claim2_counterexample :
    ([((0 : Nat), (1 : Nat)), (1, 5), (0, 65535)].Perm [(0, 65535), (0, 1), (1, 5)]) ∧
    queryOutput ["k0", "k1"] (runAdds 2 1 (rewind 2 zeroState) [(0, 1), (1, 5), (0, 65535)]) ≠
      queryOutput ["k0", "k1"] (runAdds 2 1 (rewind 2 zeroState)
        [(0, 65535), (0, 1), (1, 5)]) := by
  decide

/-- C3 (confirmed): at every externally observable point, after any sequence
of `add_rsv` and `rewind` calls whatsoever from a constructed engine (the
constructor ends in `rewind`), the results list holds at most `top_k`
entries, and iterating from `begin()` to `end()` yields at most `top_k`
results. -/
theorem claim3_bounded_size (primary_keys : List String) (documents top_k : Nat)
    (s0 : QState) (ops : List QOp) :
    results_list_length (runOps documents top_k (rewind documents s0) ops) ≤ top_k ∧
    (queryOutput primary_keys (runOps documents top_k (rewind documents s0) ops)).length
      ≤ top_k := by
  have h := runOps_len_le documents top_k ops (rewind documents s0) (by simp [rewind])
  exact ⟨h, by rw [queryOutput_length]; exact h⟩

/-- C4 (amended): on a valid, non-overflowing post-`rewind` run that fills
the heap, every dirty accumulator cell with a positive value that is not
tracked compares strictly below the root under `≺`, and the pre-update test
`cmp(cell, P[0]) ≥ 0` holds exactly when the cell is tracked (a cell equal
to the root is tracked, so it is classified as in the heap). -/
theorem claim4_inheap_test (documents top_k : Nat) (s0 : QState)
    (h : List (Nat × Nat)) (htk : 1 ≤ top_k)
    (hval : ∀ p ∈ h, p.1 < documents ∧ 0 < p.2)
    (hover : ∀ j, j < documents → totals h j < 65536) :
    results_list_length (runAdds documents top_k (rewind documents s0) h) = top_k →
    ∀ j, j >>> accumulators_shift documents < accumulators_height documents →
      (runAdds documents top_k (rewind documents s0) h).clean
        (j >>> accumulators_shift documents) = true →
      ((0 < (runAdds documents top_k (rewind documents s0) h).acc j →
        j ∉ (runAdds documents top_k (rewind documents s0) h).ptrs →
        keyLt (runAdds documents top_k (rewind documents s0) h).acc j
          ((runAdds documents top_k (rewind documents s0) h).ptrs.headD 0)) ∧
      (0 ≤ add_rsv_compare (runAdds documents top_k (rewind documents s0) h).acc j
          ((runAdds documents top_k (rewind documents s0) h).ptrs.headD 0) ↔
        j ∈ (runAdds documents top_k (rewind documents s0) h).ptrs)) := by
  have hover2 : ∀ j, j < documents → totals h j < accumulatorMod := by
    intro j hj
    have := hover j hj
    unfold accumulatorMod
    omega
  obtain ⟨hAcc, hP⟩ := inv_run documents top_k s0 h htk hval hover2
  set s := runAdds documents top_k (rewind documents s0) h with hsdef
  intro hL j hjH hjflag
  have hL2 : s.ptrs.length = top_k := hL
  have hne : s.ptrs ≠ [] := by
    intro hnil
    rw [hnil] at hL2
    simp at hL2
    omega
  have hroot_mem : s.ptrs.headD 0 ∈ s.ptrs := headD_mem hne
  have hrootmin : ∀ m ∈ s.ptrs, ¬ keyLt s.acc m (s.ptrs.headD 0) :=
    rootmin_members (hP.heap hL2)
  have hjval : s.acc j = totals h j % accumulatorMod := hAcc.2 j hjH hjflag
  have hbelow : 0 < s.acc j → j ∉ s.ptrs →
      keyLt s.acc j (s.ptrs.headD 0) := by
    intro hpos hnot
    have htpos : 0 < totals h j := by
      rcases Nat.eq_zero_or_pos (totals h j) with hz | hp
      · rw [hjval, hz] at hpos
        exact absurd hpos (by simp)
      · exact hp
    have hjdoc : j < documents := by
      obtain ⟨p, hp, hpj⟩ := exists_of_totals_pos htpos
      rw [← hpj]
      exact (hval p hp).1
    exact hP.below_root hL2 j hjdoc htpos hnot
  refine ⟨hbelow, ?_, ?_⟩
  · intro hcmp
    by_contra hnot
    rcases Nat.eq_zero_or_pos (s.acc j) with hz | hpos
    · have hrootpos : 0 < s.acc (s.ptrs.headD 0) := by
        rw [acc_eq_totals_of_pos documents h s hAcc hover2 _
          (hP.mem_lt _ hroot_mem) (hP.mem_pos _ hroot_mem)]
        exact hP.mem_pos _ hroot_mem
      have : keyLt s.acc j (s.ptrs.headD 0) := Or.inl (by rw [hz]; exact hrootpos)
      exact (add_rsv_compare_nonneg_iff _ _ _).mp hcmp this
    · exact (add_rsv_compare_nonneg_iff _ _ _).mp hcmp (hbelow hpos hnot)
  · intro hmem
    exact (add_rsv_compare_nonneg_iff _ _ _).mpr (hrootmin j hmem)

/-- C4 witness: a full heap over two documents, evaluated at the untracked
dirty cell. -/
theorem claim4_witness :
    keyLt (runAdds 2 1 (rewind 2 zeroState) [(0, 3), (1, 2)]).acc 1
      ((runAdds 2 1 (rewind 2 zeroState) [(0, 3), (1, 2)]).ptrs.headD 0) ∧
    (0 ≤ add_rsv_compare (runAdds 2 1 (rewind 2 zeroState) [(0, 3), (1, 2)]).acc 1
        ((runAdds 2 1 (rewind 2 zeroState) [(0, 3), (1, 2)]).ptrs.headD 0) ↔
      (1 : Nat) ∈ (runAdds 2 1 (rewind 2 zeroState) [(0, 3), (1, 2)]).ptrs) := by
  have := claim4_inheap_test 2 1 zeroState [(0, 3), (1, 2)] (by decide) (by decide)
    (by decide) (by decide) 1 (by decide) (by decide)
  exact ⟨this.1 (by decide) (by decide), this.2⟩

/-- C4 counterexample to the unamended claim: after `(0,3),(1,2),(0,65535)`
(valid identifiers, positive scores) the tracked cell 0 wraps to `2`, and the
untracked dirty cell 1 also holds `2` with a higher address, so it does not
compare strictly below the root and the membership test misclassifies it. -/
theorem claim4_counterexample :
    results_list_length (runAdds 2 1 (rewind 2 zeroState) [(0, 3), (1, 2), (0, 65535)]) = 1 ∧
    (runAdds 2 1 (rewind 2 zeroState) [(0, 3), (1, 2), (0, 65535)]).clean
      ((1 : Nat) >>> accumulators_shift 2) = true ∧
    0 < (runAdds 2 1 (rewind 2 zeroState) [(0, 3), (1, 2), (0, 65535)]).acc 1 ∧
    (1 : Nat) ∉ (runAdds 2 1 (rewind 2 zeroState) [(0, 3), (1, 2), (0, 65535)]).ptrs ∧
    0 ≤ add_rsv_compare (runAdds 2 1 (rewind 2 zeroState) [(0, 3), (1, 2), (0, 65535)]).acc 1
      ((runAdds 2 1 (rewind 2 zeroState) [(0, 3), (1, 2), (0, 65535)]).ptrs.headD 0) := by
  decide

/-- C5 (confirmed): after any `rewind`, the results list is empty and every
dirty flag below `accumulators_height` is zero; consequently, for every
document, the first `add_rsv` for it after that rewind observes an old cell
value of `0`, never a stale value from an earlier query. -/
theorem claim5_rewind_lazyclear (documents top_k : Nat) (s0 : QState)
    (h : List (Nat × Nat)) (hval : ∀ p ∈ h, p.1 < documents)
    (d : Nat) (hd : d < documents) (hfirst : ∀ p ∈ h, p.1 ≠ d) :
    results_list_length (rewind documents s0) = 0 ∧
    (∀ t, t < accumulators_height documents → (rewind documents s0).clean t = false) ∧
    (lazyClear documents (runAdds documents top_k (rewind documents s0) h) d).acc d = 0 := by
  refine ⟨rfl, ?_, ?_⟩
  · intro t ht
    simp [rewind, ht]
  · exact observed_old_zero documents h
      (runAdds documents top_k (rewind documents s0) h) d hd
      (accInv_run documents top_k s0 h hval)
      (totals_eq_zero h d hfirst)

/-- C5 witness: a four-document engine, first touch of document 2 after one
posting for document 1. -/
theorem claim5_witness :
    results_list_length (rewind 4 zeroState) = 0 ∧
    (∀ t, t < accumulators_height 4 → (rewind 4 zeroState).clean t = false) ∧
    (lazyClear 4 (runAdds 4 2 (rewind 4 zeroState) [(1, 3)]) 2).acc 2 = 0 :=
  claim5_rewind_lazyclear 4 2 zeroState [(1, 3)] (by decide) 2 (by decide) (by decide)

/-- C6 (amended): the engine comparator returns a positive value exactly when
the first cell is above the second under `≺`, a negative value exactly when
it is below, and `0` only when value and address coincide; the header variant
additionally returns exactly `+1` / `-1` / `0`. -/
theorem claim6_comparator_sign (acc : Nat → Nat) (a b : Nat) :
    (0 < add_rsv_compare acc a b ↔ keyLt acc b a) ∧
    (add_rsv_compare acc a b < 0 ↔ keyLt acc a b) ∧
    (add_rsv_compare acc a b = 0 ↔ acc a = acc b ∧ a = b) ∧
    (add_rsv_compare_header acc a b = 1 ↔ keyLt acc b a) ∧
    (add_rsv_compare_header acc a b = -1 ↔ keyLt acc a b) ∧
    (add_rsv_compare_header acc a b = 0 ↔ acc a = acc b ∧ a = b) := by
  unfold add_rsv_compare add_rsv_compare_header keyLt
  split_ifs <;> refine ⟨?_, ?_, ?_, ?_, ?_, ?_⟩ <;> (try simp) <;> omega

/-- C6 counterexample to the unamended claim: two equal-valued cells whose
addresses differ by two make the engine comparator return `2`, outside
`{+1, -1, 0}`. -/
theorem claim6_counterexample :
    add_rsv_compare (fun _ => 5) 2 0 = 2 ∧
    ¬ (add_rsv_compare (fun _ => 5) 2 0 = 1 ∨ add_rsv_compare (fun _ => 5) 2 0 = -1 ∨
      add_rsv_compare (fun _ => 5) 2 0 = 0) := by
  decide

/-- C7 (confirmed): for every document count and every valid document
identifier, the strip index is below `accumulators_height` and the cell index
below `accumulators_width * accumulators_height`: the source formula
`(documents + width) / width` provides the required headroom. -/
theorem claim7_no_out_of_bounds (documents docid : Nat)
    (hdoc : 1 ≤ documents) (hid : docid < documents) :
    docid >>> accumulators_shift documents < accumulators_height documents ∧
    docid < accumulators_width documents * accumulators_height documents := by
  refine ⟨strip_lt_height hid, ?_⟩
  unfold accumulators_width accumulators_height
  exact docid_lt_table_general documents docid _ hid

/-- C7 witness: ten documents, document 7. -/
theorem claim7_witness :
    (7 : Nat) >>> accumulators_shift 10 < accumulators_height 10 ∧
    (7 : Nat) < accumulators_width 10 * accumulators_height 10 :=
  claim7_no_out_of_bounds 10 7 (by decide) (by decide)

/-- C8 (amended): the constructor performs no parameter validation: for every
`documents` and `top_k` — including `documents = 0`, `top_k = 0` and
`top_k > documents` — construction succeeds and stores the computed geometry;
no invalid-argument error exists. -/
theorem claim8_no_validation (documents top_k : Nat) :
    query_atire_global_construct documents top_k =
      some { documents := documents, top_k := top_k,
             shift := accumulators_shift documents,
             width := accumulators_width documents,
             height := accumulators_height documents } ∧
    (query_atire_global_construct documents top_k).isSome = true :=
  ⟨rfl, rfl⟩

/-- C8 counterexample to the unamended claim: `top_k = 5 > documents = 1` is
not rejected: construction succeeds. -/
theorem claim8_counterexample :
    (1 : Nat) < 5 ∧ (query_atire_global_construct 1 5).isSome = true := by
  constructor
  · decide
  · rfl

/-- C9: the failing path of `allocator_memory::malloc` terminates the process
instead of returning null (the live `exit(printf(...))`), while the success
path behaves as the unit test asserts: `malloc(431)` on a fresh 1024-byte
buffer returns offset 0 and leaves `used = 431`, `capacity = 1024`, and
`rewind` resets the cursor. -/
theorem claim9_malloc_exits_on_overflow :
    allocator_memory_malloc ⟨0, 1024⟩ 2048 1 = mallocResult.out_of_memory_exit ∧
    allocator_memory_malloc ⟨0, 1024⟩ 431 1 = mallocResult.ok 0 ⟨431, 1024⟩ ∧
    allocator_memory_rewind ⟨431, 1024⟩ = ⟨0, 1024⟩ := by
  decide

set_option maxRecDepth 4000 in
/-- C10: the constructor accepts its own default `documents = 1024`, for
which `accumulators_height = (1024 + 32) / 32 = 33` exceeds the declared
`clean_flags[10]`, so `rewind`'s `memset(clean_flags, 0, accumulators_height)`
overruns the global array. -/
theorem claim10_height_exceeds_clean_flags :
    (query_atire_global_construct 1024 10).isSome = true ∧
    accumulators_height 1024 = 33 ∧
    clean_flags_capacity = 10 ∧
    ¬ accumulators_height 1024 ≤ clean_flags_capacity := by
  refine ⟨rfl, ?_, rfl, ?_⟩ <;> decide

end JASS
